import Mathlib

/-!
Verification of the raf-map-maker graph model, generator, mutation API,
layout engine, serializer and validator.

The TypeScript sources are embedded shallowly:

* `MapNode` (src/lib/types.ts) becomes an inductive tree; a JavaScript
  object graph with shared successor references is represented by the
  unfolding of the object graph along `children`, so a convergent node
  appears as several structurally equal subtrees carrying the same `id`.
* JavaScript numbers are modelled as `Int` (ids, room types, monster
  indices) and `ℚ` (layout coordinates and `Math.random()` draws).
* A record field that can be a JS number, `null` or `undefined`
  (`monsterIndex1` on the persisted records) is modelled by `JsVal`.
* `Math.random()` is modelled by an explicit stream `r : ℕ → ℚ` together
  with a cursor that is threaded exactly where the source draws.
* Unbounded JS loops (the breadth-first searches) are modelled with an
  explicit fuel parameter; the top-level entry points pass a fuel that is
  proven sufficient for the inputs the theorems speak about.
-/

namespace MapMaker

/-- JS value for a field that may be a number, `null` or `undefined`. -/
inductive JsVal where
  | undef : JsVal
  | null : JsVal
  | num : Int → JsVal
deriving DecidableEq, Repr

/-- Room type constants from `enum RoomType` (src/lib/types.ts). -/
def RoomTypeNULL : Int := 0

def RoomTypeBATTLE : Int := 1

def RoomTypeGOAL : Int := 2

/-- One persisted record (`MapNodeData`, src/lib/types.ts).  `roomData`
models the nested `{ monsterIndex1 } | null` object; `monsterIndex1`
models the same-named top-level property that the validator reads and
that test fixtures set (absent, i.e. `undefined`, on records produced by
`MapNode.toJSON`). -/
structure MapNodeData where
  id : Int
  roomType : Int
  roomData : Option Int
  monsterIndex1 : JsVal
  nextRooms : List Int
deriving DecidableEq, Repr

/-- The in-memory node (`class MapNode`, src/lib/types.ts).  `children`
holds the unfolding of the successor references. The `parent` back
reference and the mutable `x`/`y` fields are not part of the tree model:
layout coordinates are computed into an explicit map by the layout
embedding below. -/
inductive MapNode where
  | mk (id depth roomType monsterIndex1 : Int) (nextRooms : List Int)
      (children : List MapNode)

namespace MapNode

def id : MapNode → Int
  | mk i _ _ _ _ _ => i

def depth : MapNode → Int
  | mk _ d _ _ _ _ => d

def roomType : MapNode → Int
  | mk _ _ rt _ _ _ => rt

def monsterIndex1 : MapNode → Int
  | mk _ _ _ mi _ _ => mi

def nextRooms : MapNode → List Int
  | mk _ _ _ _ nr _ => nr

def children : MapNode → List MapNode
  | mk _ _ _ _ _ cs => cs

@[simp] theorem id_mk (i d rt mi : Int) (nr : List Int) (cs : List MapNode) :
    (mk i d rt mi nr cs).id = i := rfl

@[simp] theorem depth_mk (i d rt mi : Int) (nr : List Int) (cs : List MapNode) :
    (mk i d rt mi nr cs).depth = d := rfl

@[simp] theorem roomType_mk (i d rt mi : Int) (nr : List Int) (cs : List MapNode) :
    (mk i d rt mi nr cs).roomType = rt := rfl

@[simp] theorem monsterIndex1_mk (i d rt mi : Int) (nr : List Int) (cs : List MapNode) :
    (mk i d rt mi nr cs).monsterIndex1 = mi := rfl

@[simp] theorem nextRooms_mk (i d rt mi : Int) (nr : List Int) (cs : List MapNode) :
    (mk i d rt mi nr cs).nextRooms = nr := rfl

@[simp] theorem children_mk (i d rt mi : Int) (nr : List Int) (cs : List MapNode) :
    (mk i d rt mi nr cs).children = cs := rfl

end MapNode

/-- `new MapNode(id, depth, maxDepth, isRoot, monsterIndex)`
(src/lib/types.ts, constructor).  `isRoot` is unused by the constructor
body and is omitted. -/
def mkMapNode (i d maxDepth monsterIndex : Int) : MapNode :=
  MapNode.mk i d
    (if maxDepth ≤ d then RoomTypeGOAL else RoomTypeBATTLE)
    (if maxDepth ≤ d then 0 else monsterIndex)
    [0, 0, 0, 0, 0, 0] []

mutual

/-- All nodes of the unfolding, the node itself first and then the
subtrees of its `children` in order. -/
def subnodes : MapNode → List MapNode
  | .mk i d rt mi nr cs => .mk i d rt mi nr cs :: subnodesList cs

def subnodesList : List MapNode → List MapNode
  | [] => []
  | c :: rest => subnodes c ++ subnodesList rest

end

theorem subnodesList_eq_flatMap (cs : List MapNode) :
    subnodesList cs = cs.flatMap subnodes := by
  induction cs with
  | nil => rfl
  | cons c rest ih => rw [subnodesList, ih, List.flatMap_cons]

theorem subnodes_def (n : MapNode) :
    subnodes n = n :: n.children.flatMap subnodes := by
  cases n with
  | mk i d rt mi nr cs => rw [subnodes, subnodesList_eq_flatMap]; rfl

@[simp] theorem self_mem_subnodes (n : MapNode) : n ∈ subnodes n := by
  rw [subnodes_def]; exact List.mem_cons_self _ _

theorem mem_subnodes_of_child {c n : MapNode} (hc : c ∈ n.children)
    {m : MapNode} (hm : m ∈ subnodes c) : m ∈ subnodes n := by
  rw [subnodes_def]
  exact List.mem_cons_of_mem _ (List.mem_flatMap.mpr ⟨c, hc, hm⟩)

theorem subnodes_cases {n m : MapNode} (h : m ∈ subnodes n) :
    m = n ∨ ∃ c ∈ n.children, m ∈ subnodes c := by
  rw [subnodes_def] at h
  rcases List.mem_cons.mp h with h | h
  · exact Or.inl h
  · rcases List.mem_flatMap.mp h with ⟨c, hc, hm⟩
    exact Or.inr ⟨c, hc, hm⟩

theorem child_mem_subnodes {c n : MapNode} (hc : c ∈ n.children) :
    c ∈ subnodes n :=
  mem_subnodes_of_child hc (self_mem_subnodes c)

theorem sizeOf_lt_of_mem_children {c n : MapNode} (hc : c ∈ n.children) :
    sizeOf c < sizeOf n := by
  cases n with
  | mk i d rt mi nr cs =>
    have := List.sizeOf_lt_of_mem hc
    simp only [MapNode.mk.sizeOf_spec]
    simp only [MapNode.children_mk] at this
    omega

theorem subnodes_trans {a b c : MapNode} (hab : a ∈ subnodes b)
    (hbc : b ∈ subnodes c) : a ∈ subnodes c := by
  rcases subnodes_cases hbc with h | ⟨k, hk, hbk⟩
  · subst h; exact hab
  · exact mem_subnodes_of_child hk (subnodes_trans hab hbk)
termination_by sizeOf c
decreasing_by exact sizeOf_lt_of_mem_children hk

/-- `children` mirrors the non-zero `nextRooms` slots throughout the
unfolding: the list of child ids equals the list of positive entries, in
order. -/
def Mirror (g : MapNode) : Prop :=
  ∀ n ∈ subnodes g, n.children.map MapNode.id = n.nextRooms.filter (0 < ·)

/-- Ids determine nodes throughout the unfolding: two subtrees carrying
the same id are equal.  This is how "node ids are unique within a graph"
reads on the unfolding of an object graph. -/
def IdCoherent (g : MapNode) : Prop :=
  ∀ a ∈ subnodes g, ∀ b ∈ subnodes g, a.id = b.id → a = b

instance (g : MapNode) : Decidable (Mirror g) := by
  unfold Mirror; infer_instance

/-! ## Mutation API (src/lib/graph-operations.ts) -/

/-- Index of the first element satisfying `p`, or `none`
(JS `indexOf` / `findIndex`, with `-1` modelled as `none`). -/
def findIndexBy {α : Type} (p : α → Bool) : List α → Option Nat
  | [] => none
  | x :: rest => if p x then some 0 else (findIndexBy p rest).map (· + 1)

theorem findIndexBy_eq_none_iff {α : Type} (p : α → Bool) (l : List α) :
    findIndexBy p l = none ↔ ∀ x ∈ l, ¬ p x := by
  induction l with
  | nil => simp [findIndexBy]
  | cons x rest ih =>
    by_cases hx : p x <;> simp [findIndexBy, hx, ih]

theorem findIndexBy_eq_some {α : Type} {p : α → Bool} {l : List α} {i : Nat}
    (h : findIndexBy p l = some i) :
    i < l.length ∧ (∃ x, l.get? i = some x ∧ p x) ∧
      ∀ j < i, ∀ y, l.get? j = some y → ¬ p y := by
  induction l generalizing i with
  | nil => simp [findIndexBy] at h
  | cons x rest ih =>
    by_cases hx : p x
    · simp only [findIndexBy, hx, if_pos] at h
      cases h
      exact ⟨by simp, ⟨x, by simp, hx⟩, by omega⟩
    · simp only [findIndexBy, hx, if_neg, Bool.false_eq_true, not_false_iff,
        Option.map_eq_some'] at h
      obtain ⟨i', hi', rfl⟩ := h
      obtain ⟨h1, ⟨y, hy, hpy⟩, h3⟩ := ih hi'
      refine ⟨by simpa using h1, ⟨y, by simpa using hy, hpy⟩, ?_⟩
      intro j hj z hz
      match j with
      | 0 => simp at hz; subst hz; exact hx
      | j + 1 =>
        exact h3 j (by omega) z (by simpa using hz)

/-- Removing the element at the found index is removing the first match. -/
theorem removeAtFind_eq_eraseP {α : Type} (p : α → Bool) (l : List α) :
    (match findIndexBy p l with
      | none => l
      | some j => l.eraseIdx j) = l.eraseP p := by
  induction l with
  | nil => rfl
  | cons x rest ih =>
    by_cases hx : p x
    · simp [findIndexBy, hx, List.eraseP_cons, List.eraseIdx]
    · simp only [findIndexBy, hx, if_neg, Bool.false_eq_true, not_false_iff,
        List.eraseP_cons, cond_false]
      cases hfind : findIndexBy p rest with
      | none => simpa [hfind] using ih
      | some j => simpa [hfind, List.eraseIdx] using ih

/-- The `for (let i = 0; i < 7; i++)` slot-write loop of `addChildNode`:
writes `v` into the first zero slot among indices `0..6`, if any. -/
def writeFirstZeroSlot (nr : List Int) (v : Int) : List Int :=
  match findIndexBy (fun x => x = 0) nr with
  | some i => if i < 7 then nr.set i v else nr
  | none => nr

/-- `addChildNode(parent, child)` (src/lib/graph-operations.ts, lines
59-85), returning the result value and the parent after the call. -/
def addChildNode (parent child : MapNode) : Bool × MapNode :=
  if child.id ∈ parent.nextRooms then (false, parent)
  else if 4 ≤ (parent.nextRooms.filter (fun i => 0 < i)).length then
    (false, parent)
  else
    (true, MapNode.mk parent.id parent.depth parent.roomType
      parent.monsterIndex1 (writeFirstZeroSlot parent.nextRooms child.id)
      (if parent.children.any (fun c => c.id = child.id)
       then parent.children
       else parent.children ++ [child]))

/-- `removeChildNode(parent, childId)` (src/lib/graph-operations.ts,
lines 90-106), returning the result value and the parent after the
call. -/
def removeChildNode (parent : MapNode) (childId : Int) : Bool × MapNode :=
  match findIndexBy (fun x => x = childId) parent.nextRooms with
  | none => (false, parent)
  | some i =>
    (true, MapNode.mk parent.id parent.depth parent.roomType
      parent.monsterIndex1 (parent.nextRooms.set i 0)
      (match findIndexBy (fun c => c.id = childId) parent.children with
        | none => parent.children
        | some j => parent.children.eraseIdx j))

theorem any_id_eq_iff_mem_map (cs : List MapNode) (v : Int) :
    (cs.any (fun c => c.id = v) = true) ↔ v ∈ cs.map MapNode.id := by
  simp only [List.any_eq_true, decide_eq_true_eq, List.mem_map]

end MapMaker

namespace MapMaker

/-- C8: `removeChildNode(parent, childId)` fails (returns `false`,
parent unchanged) exactly when `childId` does not occur in
`parent.nextRooms`; otherwise it returns `true`, zeroes the first slot
holding `childId`, removes the first entry with that id from
`parent.children`, and leaves every other field of the parent — and, the
model being pure, every other node — unchanged. -/
theorem removeChildNode_spec (parent : MapNode) (childId : Int) :
    (childId ∉ parent.nextRooms →
      removeChildNode parent childId = (false, parent)) ∧
    (childId ∈ parent.nextRooms →
      ∃ i, i < parent.nextRooms.length ∧
        parent.nextRooms.get? i = some childId ∧
        (∀ j < i, parent.nextRooms.get? j ≠ some childId) ∧
        removeChildNode parent childId = (true, MapNode.mk parent.id
          parent.depth parent.roomType parent.monsterIndex1
          (parent.nextRooms.set i 0)
          (parent.children.eraseP (fun c => c.id = childId)))) := by
  cases hfind : findIndexBy (fun x => x = childId) parent.nextRooms with
  | none =>
    have hnone := (findIndexBy_eq_none_iff _ _).mp hfind
    constructor
    · intro _
      unfold removeChildNode
      rw [hfind]
    · intro hmem
      exact absurd (hnone childId hmem) (by simp)
  | some i =>
    obtain ⟨hlt, ⟨x, hx, hpx⟩, hmin⟩ := findIndexBy_eq_some hfind
    have hx0 : x = childId := by simpa using hpx
    rw [hx0] at hx
    constructor
    · intro hnot
      exact absurd (List.get?_mem hx) hnot
    · intro _
      refine ⟨i, hlt, hx, ?_, ?_⟩
      · intro j hj hget
        exact hmin j hj childId hget (by simp)
      · have hcs : (match findIndexBy (fun c => c.id = childId)
            parent.children with
            | none => parent.children
            | some j => parent.children.eraseIdx j) =
            parent.children.eraseP (fun c => c.id = childId) :=
          removeAtFind_eq_eraseP _ _
        simp only [removeChildNode, hfind, hcs]

/-- C8 witness: removing an absent id 9 from a concrete parent fails,
and removing the present id 3 succeeds with the first matching slot
zeroed and the matching child entry erased. -/
theorem removeChildNode_spec_witness :
    removeChildNode (MapNode.mk 1 0 1 5 [3, 0, 3, 4, 0, 0]
        [MapNode.mk 3 1 2 0 [0, 0, 0, 0, 0, 0] []]) 9 =
      (false, MapNode.mk 1 0 1 5 [3, 0, 3, 4, 0, 0]
        [MapNode.mk 3 1 2 0 [0, 0, 0, 0, 0, 0] []]) ∧
    (∃ i, i < (MapNode.mk 1 0 1 5 [3, 0, 3, 4, 0, 0]
          [MapNode.mk 3 1 2 0 [0, 0, 0, 0, 0, 0] []]).nextRooms.length ∧
      (MapNode.mk 1 0 1 5 [3, 0, 3, 4, 0, 0]
        [MapNode.mk 3 1 2 0 [0, 0, 0, 0, 0, 0] []]).nextRooms.get? i =
        some 3 ∧
      (∀ j < i, (MapNode.mk 1 0 1 5 [3, 0, 3, 4, 0, 0]
        [MapNode.mk 3 1 2 0 [0, 0, 0, 0, 0, 0] []]).nextRooms.get? j ≠
        some 3) ∧
      removeChildNode (MapNode.mk 1 0 1 5 [3, 0, 3, 4, 0, 0]
          [MapNode.mk 3 1 2 0 [0, 0, 0, 0, 0, 0] []]) 3 =
        (true, MapNode.mk 1 0 1 5
          (([3, 0, 3, 4, 0, 0] : List Int).set i 0)
          (([MapNode.mk 3 1 2 0 [0, 0, 0, 0, 0, 0] []]).eraseP
            (fun c => c.id = 3)))) :=
  ⟨(removeChildNode_spec (MapNode.mk 1 0 1 5 [3, 0, 3, 4, 0, 0]
      [MapNode.mk 3 1 2 0 [0, 0, 0, 0, 0, 0] []]) 9).1 (by decide),
   (removeChildNode_spec (MapNode.mk 1 0 1 5 [3, 0, 3, 4, 0, 0]
      [MapNode.mk 3 1 2 0 [0, 0, 0, 0, 0, 0] []]) 3).2 (by decide)⟩

/-! ## Validator (src/unnamed/part_002, `MapValidator`) -/

/-- `MapValidator.validateSingleNode(node, path)`: the errors pushed for
one record.  The validator reads the top-level `monsterIndex1` property
of the record (`JsVal`), not the nested `roomData` object. -/
def validateSingleNode (node : MapNodeData) (path : String) : List String :=
  (if node.id < 1 then [path ++ ": id must be a positive integer"] else []) ++
  (if node.roomType = 0 ∨ node.roomType = 1 ∨ node.roomType = 2 then []
   else [path ++ ": roomType must be 0 (NULL), 1 (BATTLE), or 2 (GOAL)"]) ++
  (if node.roomType = 1 then
    (match node.monsterIndex1 with
     | JsVal.num m =>
       if m < 0 ∨ 65535 < m then
         [path ++ ": BATTLE rooms must have monsterIndex1 as a number " ++
           "between 0 and 65535"]
       else []
     | _ =>
       [path ++ ": BATTLE rooms must have monsterIndex1 as a number " ++
         "between 0 and 65535"])
   else if node.roomType = 0 ∨ node.roomType = 2 then
    (match node.monsterIndex1 with
     | JsVal.null => []
     | _ => [path ++ ": NULL and GOAL rooms must have monsterIndex1 = null"])
   else []) ++
  (if node.nextRooms.length ≠ 6 then
    [path ++ ": nextRooms must be an array of exactly 6 elements"]
   else
    node.nextRooms.enum.flatMap (fun p =>
      if p.2 < 0 then
        [path ++ ": nextRooms[" ++ toString p.1 ++
          "] must be a non-negative integer"]
      else []) ++
    (if node.roomType = 1 ∧
        ((node.nextRooms.filter (fun i => 0 < i)).length < 1 ∨
          6 < (node.nextRooms.filter (fun i => 0 < i)).length) then
      [path ++ ": BATTLE rooms must have 1-6 children (doors)"]
     else []) ++
    (if node.roomType = 2 ∧
        0 < (node.nextRooms.filter (fun i => 0 < i)).length then
      [path ++ ": GOAL rooms must have no children"]
     else []))

/-- The duplicate-id/per-record pass of `validateFlatStructure`: walks
the records keeping the set of ids seen so far (the `nodeMap` keys in
insertion order), pushing a duplicate error and the single-node errors
for each record.  Returns the accumulated errors and the final key
list. -/
def dupSinglePass : List MapNodeData → List Int → List String × List Int
  | [], seen => ([], seen)
  | n :: rest, seen =>
    ((if n.id ∈ seen then ["Duplicate node ID found: " ++ toString n.id]
      else []) ++
      validateSingleNode n ("node[" ++ toString n.id ++ "]") ++
      (dupSinglePass rest
        (if n.id ∈ seen then seen else seen ++ [n.id])).1,
     (dupSinglePass rest
       (if n.id ∈ seen then seen else seen ++ [n.id])).2)

/-- The incremental-id loop of `validateFlatStructure`: compares the
sorted key list against `1, 2, 3, …` and stops at the first gap
(`break` in the source). -/
def incrementalCheck : List Int → Int → List String
  | [], _ => []
  | x :: rest, expected =>
    if x ≠ expected then
      ["Node IDs must be incremental starting from 1. Missing ID: " ++
        toString expected]
    else incrementalCheck rest (expected + 1)

/-- `MapValidator.validateFlatStructure(nodes)`: every error pushed, in
source order.  The result is valid exactly when this list is empty. -/
def validateFlatStructure (nodes : List MapNodeData) : List String :=
  if nodes = [] then ["Map must contain at least one node"]
  else
    let pass := dupSinglePass nodes []
    let keys := pass.2
    let allChildIds := nodes.flatMap (fun n => n.nextRooms.filter (fun i => 0 < i))
    pass.1 ++
    (if 1 ∈ keys then [] else ["Root node with ID 1 not found"]) ++
    incrementalCheck (keys.insertionSort (fun a b => a ≤ b)) 1 ++
    nodes.flatMap (fun n =>
      n.nextRooms.flatMap (fun cid =>
        if 0 < cid ∧ cid ∉ keys then
          ["Node " ++ toString n.id ++ " references non-existent child " ++
            toString cid]
        else []) ++
      (if n.roomType = 2 ∧
          0 < (n.nextRooms.filter (fun i => 0 < i)).length then
        ["Node " ++ toString n.id ++ ": GOAL rooms cannot have children"]
       else []) ++
      (if n.roomType = 1 ∧
          (n.nextRooms.filter (fun i => 0 < i)).length = 0 then
        ["Node " ++ toString n.id ++
          ": BATTLE rooms should have children or be GOAL type"]
       else [])) ++
    (if (nodes.filter (fun n => n.id ∉ allChildIds)).length = 1 then []
     else
      ["Map must have exactly one root node, found " ++
        toString (nodes.filter (fun n => n.id ∉ allChildIds)).length])

/-- `MapValidator.validate` on a record array, and `getErrors`. -/
def validateArray (nodes : List MapNodeData) : Bool :=
  (validateFlatStructure nodes).isEmpty

/-! ## Serializer (src/lib/types.ts, `toJSON` / `toFlatJSON`) -/

/-- `MapNode.toJSON()`: the monster index is nested under `roomData` for
BATTLE rooms; the top-level `monsterIndex1` property is not set
(`undefined`). -/
def toJSON (n : MapNode) : MapNodeData :=
  { id := n.id, roomType := n.roomType,
    roomData := if n.roomType = RoomTypeBATTLE then some n.monsterIndex1
                else none,
    monsterIndex1 := JsVal.undef,
    nextRooms := n.nextRooms }

/-- The push phase of one `toFlatJSON` BFS iteration: for each positive
`nextRooms` entry, look the child up in `children` by id and push it
unless its id is already visited (the visited set already holds the id
of the node being expanded). -/
def bfsPushes (n : MapNode) (visited : List Int) : List MapNode :=
  n.nextRooms.filterMap (fun cid =>
    if 0 < cid then
      match n.children.find? (fun c => c.id = cid) with
      | some c => if c.id ∈ n.id :: visited then none else some c
      | none => none
    else none)

/-- The BFS collection loop of `toFlatJSON`: pops the queue, skips
visited ids, records the node, and pushes the children found for the
positive `nextRooms` entries that are not yet visited. -/
def flattenCollect : Nat → List MapNode → List Int → List MapNode
  | 0, _, _ => []
  | _ + 1, [], _ => []
  | fuel + 1, n :: queue, visited =>
    if n.id ∈ visited then flattenCollect fuel queue visited
    else
      n :: flattenCollect fuel (queue ++ bfsPushes n visited)
        (n.id :: visited)

/-- The `oldToNew` renumbering map of `toFlatJSON`: position in the
id-sorted collected list, plus one. -/
def oldToNew (sorted : List MapNode) (oldId : Int) : Option Int :=
  (findIndexBy (fun n => n.id = oldId) sorted).map (fun (k : Nat) => (k : Int) + 1)

/-- `MapNode.toFlatJSON()` (src/lib/types.ts, lines 145-191). -/
def toFlatJSON (g : MapNode) : List MapNodeData :=
  let collected := flattenCollect
    ((subnodes g).length * (subnodes g).length + (subnodes g).length + 1)
    [g] []
  let sorted := collected.insertionSort (fun a b => a.id ≤ b.id)
  sorted.map (fun n =>
    { toJSON n with
      id := (oldToNew sorted n.id).getD 0,
      nextRooms := n.nextRooms.map (fun cid =>
        if 0 < cid then (oldToNew sorted cid).getD 0 else 0) })

/-! ## Generator (src/lib/types.ts `generateChildren`,
src/lib/map-generator.ts `generateMap`) -/

/-- Base case of `generateChildren` (depth at or past `maxDepth`, or the
node is already a GOAL): clear the children, force GOAL, clear the
monster. -/
def goalify (self : MapNode) : MapNode :=
  MapNode.mk self.id self.depth RoomTypeGOAL 0 self.nextRooms []

/-- Penultimate case of `generateChildren`: route the single edge
`nextRooms[0]` to the shared GOAL node and keep it as the only child. -/
def setPenultimate (self g : MapNode) : MapNode :=
  MapNode.mk self.id self.depth self.roomType self.monsterIndex1
    (self.nextRooms.set 0 g.id) [g]

/-- The shared GOAL node created by the first penultimate node:
`new MapNode(counter++, depth+1, maxDepth)` followed by the explicit
GOAL/monster overwrites. -/
def mkSharedGoal (cid d maxDepth : Int) : MapNode :=
  let g0 := mkMapNode cid d maxDepth 0
  MapNode.mk g0.id g0.depth RoomTypeGOAL 0 g0.nextRooms g0.children

/-- `getRandomMonsterIndexForDepth(depth, maxDepth, availableIndices)`
(src/lib/types.ts, lines 93-134).  Consumes one random draw exactly when
the source calls `Math.random()`; returns the chosen catalog index and
the new random-stream cursor. -/
def getRandomMonsterIndexForDepth (d maxDepth : Int) (avail : List Int)
    (r : Nat → ℚ) (ri : Nat) : Int × Nat :=
  if avail.length = 0 then (0, ri)
  else
    let depthFrac : ℚ := (d : ℚ) / max (maxDepth : ℚ) 1
    let weights0 : List Int :=
      if depthFrac ≤ 1/4 then [70, 20, 8, 2]
      else if depthFrac ≤ 1/2 then [40, 35, 20, 5]
      else if depthFrac ≤ 3/4 then [15, 30, 35, 20]
      else [5, 15, 35, 45]
    let weights :=
      if avail.length < weights0.length then weights0.take avail.length
      else weights0 ++ List.replicate (avail.length - weights0.length) 0
    if weights.sum = 0 then (avail.headI, ri)
    else (weightedPickLoop avail.headI (weights.zip avail)
      (r ri * ((weights.sum : Int) : ℚ)), ri + 1)
where
  /-- The cumulative-subtraction selection loop. -/
  weightedPickLoop (fallback : Int) : List (Int × Int) → ℚ → Int
    | [], _ => fallback
    | (w, a) :: rest, random =>
      if random - (w : ℚ) ≤ 0 then a
      else weightedPickLoop fallback rest (random - (w : ℚ))

/-- The `for (let i = 0; i < numChildren; i++)` loop of
`generateChildren`: creates `k` more children starting at slot `slot`,
threading the id counter, the shared goal and the random cursor, and
accumulating the children list and the parent `nextRooms`.  `gen` is the
recursive `generateChildren` call one level down. -/
def genChildrenLoop
    (gen : MapNode → Int → Int → Option MapNode → List Int → (Nat → ℚ) →
      Nat → MapNode × Int × Option MapNode × Nat) :
    Nat → Nat → Int → Int → Int → Option MapNode → List Int →
    (Nat → ℚ) → Nat → List MapNode → List Int →
    List MapNode × List Int × Int × Option MapNode × Nat
  | 0, _, _, _, counter, goal, _, _, ri, accChildren, accNextRooms =>
    (accChildren, accNextRooms, counter, goal, ri)
  | k + 1, slot, parentDepth, maxDepth, counter, goal, avail, r, ri,
      accChildren, accNextRooms =>
    let pick := getRandomMonsterIndexForDepth (parentDepth + 1) maxDepth
      avail r ri
    let child0 := mkMapNode counter (parentDepth + 1) maxDepth pick.1
    let res := gen child0 maxDepth (counter + 1) goal avail r pick.2
    let goal2 := match res.2.2.1 with
      | some g => some g
      | none => goal
    genChildrenLoop gen k (slot + 1) parentDepth maxDepth res.2.1 goal2
      avail r res.2.2.2 (accChildren ++ [res.1])
      (accNextRooms.set slot child0.id)

/-- `MapNode.generateChildren(maxDepth, nodeIdCounter, sharedGoalNode,
availableMonsterIndices)` (src/lib/types.ts, lines 46-91).  Returns the
node after the call, the id counter, the goal node propagated by the
`result.goalNode` field (`none` models `undefined`), and the
random-stream cursor.  `fuel` bounds the recursion depth; every call
site passes `maxDepth - depth`, which the structure of the recursion
(children live at `depth + 1`) keeps exact. -/
def generateChildren : Nat → MapNode → Int → Int → Option MapNode →
    List Int → (Nat → ℚ) → Nat → MapNode × Int × Option MapNode × Nat
  | 0, self, _, counter, _, _, _, ri => (goalify self, counter, none, ri)
  | fuel + 1, self, maxDepth, counter, sg, avail, r, ri =>
    if maxDepth ≤ self.depth ∨ self.roomType = RoomTypeGOAL then
      (goalify self, counter, none, ri)
    else if self.depth = maxDepth - 1 then
      match sg with
      | some g => (setPenultimate self g, counter, some g, ri)
      | none =>
        let g := mkSharedGoal counter (self.depth + 1) maxDepth
        (setPenultimate self g, counter + 1, some g, ri)
    else
      let numChildren := (⌊r ri * 4⌋).toNat + 1
      let res := genChildrenLoop (generateChildren fuel) numChildren 0
        self.depth maxDepth counter sg avail r (ri + 1) [] self.nextRooms
      (MapNode.mk self.id self.depth self.roomType self.monsterIndex1
        res.2.1 res.1, res.2.2.1, res.2.2.2.1, res.2.2.2.2)

/-- `generateMap(maxDepth, availableMonsterIndices)`
(src/lib/map-generator.ts, lines 10-16): fresh root with id 1 at depth
0, then `generateChildren`.  Returns the root and the final id
counter. -/
def generateMap (maxDepth : Int) (avail : List Int) (r : Nat → ℚ) :
    MapNode × Int :=
  let root := mkMapNode 1 0 maxDepth 0
  let res := generateChildren maxDepth.toNat root maxDepth 2 none avail r 0
  (res.1, res.2.1)



/-- C3 counterexample: with four non-zero `nextRooms` entries — fewer
than the claimed capacity six — `addChildNode` already returns `false`
for a fresh child, because the source checks `currentChildren >= 4`. -/
theorem addChildNode_capacity_counterexample :
    (addChildNode (MapNode.mk 1 0 1 0 [2, 3, 4, 5, 0, 0] [])
        (MapNode.mk 6 1 2 0 [0, 0, 0, 0, 0, 0] [])).1 = false ∧
    (MapNode.mk 6 1 2 0 [0, 0, 0, 0, 0, 0] []).id ∉
      (MapNode.mk 1 0 1 0 [2, 3, 4, 5, 0, 0] []).nextRooms ∧
    ((MapNode.mk 1 0 1 0 [2, 3, 4, 5, 0, 0] []).nextRooms.filter
        (fun i => 0 < i)).length ≠ 6 := by
  decide

/-- C3 amended: `addChildNode(parent, child)` fails (returns `false`,
parent unchanged) exactly when `child.id` already appears in
`parent.nextRooms` or the count of non-zero `nextRooms` entries is at
least **4** (not the claimed capacity 6); otherwise it writes `child.id`
into the first zero slot, appends `child` to `parent.children` when no
child with that id is present, and returns `true`.  Stated for parents
whose `nextRooms` is the canonical six-slot array of non-negative
entries. -/
theorem addChildNode_spec (parent child : MapNode)
    (hlen : parent.nextRooms.length = 6)
    (hnn : ∀ x ∈ parent.nextRooms, 0 ≤ x) :
    ((addChildNode parent child).1 = false ↔
      (child.id ∈ parent.nextRooms ∨
        4 ≤ (parent.nextRooms.filter (fun i => 0 < i)).length)) ∧
    ((child.id ∈ parent.nextRooms ∨
        4 ≤ (parent.nextRooms.filter (fun i => 0 < i)).length) →
      addChildNode parent child = (false, parent)) ∧
    (¬ (child.id ∈ parent.nextRooms ∨
        4 ≤ (parent.nextRooms.filter (fun i => 0 < i)).length) →
      ∃ i, i < 6 ∧ parent.nextRooms.get? i = some 0 ∧
        (∀ j < i, parent.nextRooms.get? j ≠ some 0) ∧
        addChildNode parent child = (true, MapNode.mk parent.id
          parent.depth parent.roomType parent.monsterIndex1
          (parent.nextRooms.set i child.id)
          (if child.id ∈ parent.children.map MapNode.id
           then parent.children
           else parent.children ++ [child]))) := by
  by_cases hmem : child.id ∈ parent.nextRooms
  · refine ⟨?_, ?_, ?_⟩
    · simp [addChildNode, hmem]
    · intro _; simp [addChildNode, hmem]
    · intro h; exact absurd (Or.inl hmem) h
  · by_cases hcap : 4 ≤ (parent.nextRooms.filter (fun i => 0 < i)).length
    · refine ⟨?_, ?_, ?_⟩
      · simp [addChildNode, hmem, hcap]
      · intro _; simp [addChildNode, hmem, hcap]
      · intro h; exact absurd (Or.inr hcap) h
    · have hzero : findIndexBy (fun x => x = 0) parent.nextRooms ≠ none := by
        intro hnone
        have hall := (findIndexBy_eq_none_iff _ _).mp hnone
        have hpos : ∀ x ∈ parent.nextRooms, (0 < x) := by
          intro x hx
          have h1 := hnn x hx
          have h2 : ¬ (x = 0) := by simpa using hall x hx
          omega
        have : parent.nextRooms.filter (fun i => 0 < i) =
            parent.nextRooms := by
          apply List.filter_eq_self.mpr
          intro x hx; simpa using hpos x hx
        rw [this, hlen] at hcap
        omega
      cases hfind : findIndexBy (fun x => x = 0) parent.nextRooms with
      | none => exact absurd hfind hzero
      | some i =>
        obtain ⟨hlt, ⟨x, hx, hpx⟩, hmin⟩ := findIndexBy_eq_some hfind
        have hx0 : x = 0 := by simpa using hpx
        subst hx0
        have hres : addChildNode parent child = (true, MapNode.mk parent.id
            parent.depth parent.roomType parent.monsterIndex1
            (parent.nextRooms.set i child.id)
            (if child.id ∈ parent.children.map MapNode.id
             then parent.children
             else parent.children ++ [child])) := by
          have hi7 : i < 7 := by omega
          unfold addChildNode writeFirstZeroSlot
          rw [if_neg hmem, if_neg hcap]
          simp only [hfind]
          rw [if_pos hi7]
          by_cases hany : child.id ∈ parent.children.map MapNode.id
          · rw [if_pos ((any_id_eq_iff_mem_map _ _).mpr hany), if_pos hany]
          · rw [if_neg (fun hc => hany ((any_id_eq_iff_mem_map _ _).mp hc)),
              if_neg hany]
        refine ⟨?_, ?_, ?_⟩
        · rw [hres]; simp [hmem, hcap]
        · intro h; exact absurd h (by simp [hmem, hcap])
        · intro _
          refine ⟨i, by omega, hx, ?_, hres⟩
          intro j hj hget
          exact hmin j hj 0 hget (by simp)

/-- C3 witness: on a parent with one used slot, adding a fresh child
writes into the first zero slot (index 1) and appends the child. -/
theorem addChildNode_spec_witness :
    ∃ i, i < 6 ∧
      (MapNode.mk 1 0 1 0 [7, 0, 0, 0, 0, 0] []).nextRooms.get? i =
        some 0 ∧
      (∀ j < i, (MapNode.mk 1 0 1 0 [7, 0, 0, 0, 0, 0] []).nextRooms.get? j ≠
        some 0) ∧
      addChildNode (MapNode.mk 1 0 1 0 [7, 0, 0, 0, 0, 0] [])
        (MapNode.mk 2 1 2 0 [0, 0, 0, 0, 0, 0] []) =
      (true, MapNode.mk 1 0 1 0
        ((MapNode.mk 1 0 1 0 [7, 0, 0, 0, 0, 0] []).nextRooms.set i 2)
        (if (2 : Int) ∈ (([] : List MapNode).map MapNode.id)
         then ([] : List MapNode)
         else ([] : List MapNode) ++
           [MapNode.mk 2 1 2 0 [0, 0, 0, 0, 0, 0] []])) := by
  have h := (addChildNode_spec (MapNode.mk 1 0 1 0 [7, 0, 0, 0, 0, 0] [])
    (MapNode.mk 2 1 2 0 [0, 0, 0, 0, 0, 0] []) (by decide) (by decide)).2.2
    (by decide)
  exact h

/-- One step of `nextRooms` traversal on a record array: some record
with id `a` has the positive entry `b`. -/
def recordStep (records : List MapNodeData) (a b : Int) : Prop :=
  ∃ rec ∈ records, rec.id = a ∧ b ∈ rec.nextRooms ∧ 0 < b

instance (records : List MapNodeData) (a b : Int) :
    Decidable (recordStep records a b) := by
  unfold recordStep; infer_instance

/-- A record array is acyclic when no `nextRooms` traversal returns to
its starting record. -/
def RecordAcyclic (records : List MapNodeData) : Prop :=
  ∀ a, ¬ Relation.TransGen (recordStep records) a a

/-- C1 (code bug): `validate` on the output of `flatten` for a
generator-produced graph returns `false` with a non-empty error list,
never `true`.  `MapNode.toJSON` nests the monster index inside
`roomData` and leaves the top-level `monsterIndex1` property undefined,
while `MapValidator.validateSingleNode` reads exactly that top-level
property, so every BATTLE record fails the 0–65535 number check and
every NULL/GOAL record fails the `= null` check.  The repository's own
tests (the end-to-end workflow test and the UI integration test) expect
`validate` to accept serialized maps. -/
theorem validate_flatten_generated_fails :
    validateArray (toFlatJSON (generateMap 1 [0, 1, 2, 3]
      (fun _ => 0)).1) = false ∧
    validateFlatStructure (toFlatJSON (generateMap 1 [0, 1, 2, 3]
      (fun _ => 0)).1) =
      ["node[1]: BATTLE rooms must have monsterIndex1 as a number " ++
        "between 0 and 65535",
       "node[2]: NULL and GOAL rooms must have monsterIndex1 = null"] := by
  decide

/-- C4 counterexample: a record array containing the cycle `2 → 3 → 2`
that the validator nevertheless accepts — the validator has no cycle
check, only local and counting checks. -/
theorem validator_accepts_cycle :
    validateArray
      [⟨1, 1, some 0, JsVal.num 0, [2, 0, 0, 0, 0, 0]⟩,
       ⟨2, 1, some 0, JsVal.num 0, [3, 0, 0, 0, 0, 0]⟩,
       ⟨3, 1, some 0, JsVal.num 0, [2, 0, 0, 0, 0, 0]⟩] = true ∧
    ¬ RecordAcyclic
      [⟨1, 1, some 0, JsVal.num 0, [2, 0, 0, 0, 0, 0]⟩,
       ⟨2, 1, some 0, JsVal.num 0, [3, 0, 0, 0, 0, 0]⟩,
       ⟨3, 1, some 0, JsVal.num 0, [2, 0, 0, 0, 0, 0]⟩] := by
  constructor
  · decide
  · intro h
    exact h 2 (@Relation.TransGen.head Int _ 2 3 2 (by decide)
      (Relation.TransGen.single (by decide)))

theorem dupSinglePass_no_errors {nodes : List MapNodeData}
    {seen : List Int} (h : (dupSinglePass nodes seen).1 = []) :
    (∀ n ∈ nodes, n.id ∉ seen) ∧ (nodes.map MapNodeData.id).Nodup ∧
      (dupSinglePass nodes seen).2 = seen ++ nodes.map MapNodeData.id := by
  induction nodes generalizing seen with
  | nil => exact ⟨by simp, by simp [dupSinglePass]⟩
  | cons n rest ih =>
    simp only [dupSinglePass, List.append_eq_nil] at h
    obtain ⟨⟨hdup, _⟩, hrest⟩ := h
    have hnid : n.id ∉ seen := by
      by_contra hmem
      simp [hmem] at hdup
    rw [if_neg hnid] at hrest
    obtain ⟨hforall, hnodup, hkeys⟩ := ih hrest
    refine ⟨?_, ?_, ?_⟩
    · intro m hm
      rcases List.mem_cons.mp hm with rfl | hm'
      · exact hnid
      · intro hmem
        exact hforall m hm' (List.mem_append_left _ hmem)
    · rw [List.map_cons, List.nodup_cons]
      refine ⟨?_, hnodup⟩
      intro hmem
      rcases List.mem_map.mp hmem with ⟨m, hm, hid⟩
      exact hforall m hm (by
        rw [← hid]
        exact List.mem_append_right _ (List.mem_singleton_self _))
    · rw [dupSinglePass]
      simp only [if_neg hnid]
      rw [hkeys]
      simp only [List.map_cons, List.append_assoc, List.singleton_append]

/-- The ascending sequence `e, e+1, …` of length `n`. -/
def idSeq (e : Int) : Nat → List Int
  | 0 => []
  | n + 1 => e :: idSeq (e + 1) n

theorem incrementalCheck_no_errors {l : List Int} {e : Int}
    (h : incrementalCheck l e = []) : l = idSeq e l.length := by
  induction l generalizing e with
  | nil => rfl
  | cons x rest ih =>
    rw [incrementalCheck] at h
    by_cases hx : x = e
    · subst hx
      rw [if_neg (by simp)] at h
      rw [List.length_cons, idSeq]
      exact congrArg _ (ih h)
    · rw [if_pos hx] at h
      exact absurd h (by simp)

/-- C4 amended: the validator does **not** guarantee acyclicity (see the
counterexample); what acceptance (`validate` returning `true`) does
guarantee across records is: the array is non-empty, ids are
duplicate-free and — once sorted — form the contiguous sequence
`1..N`, every positive `nextRooms` entry references an existing id, and
exactly one record is referenced by no other. -/
theorem validateArray_accepted_props (records : List MapNodeData)
    (h : validateArray records = true) :
    records ≠ [] ∧
    (records.map MapNodeData.id).Nodup ∧
    (records.map MapNodeData.id).insertionSort (fun a b => a ≤ b) =
      idSeq 1 records.length ∧
    (∀ rec ∈ records, ∀ cid ∈ rec.nextRooms, 0 < cid →
      cid ∈ records.map MapNodeData.id) ∧
    (records.filter (fun n => n.id ∉
      records.flatMap (fun m => m.nextRooms.filter (fun i => 0 < i)))).length
      = 1 := by
  unfold validateArray at h
  rw [List.isEmpty_iff] at h
  unfold validateFlatStructure at h
  by_cases hne : records = []
  · rw [if_pos hne] at h
    exact absurd h (by simp)
  · rw [if_neg hne] at h
    simp only [List.append_eq_nil] at h
    obtain ⟨⟨⟨⟨hdup, _hroot1⟩, hincr⟩, hrefs⟩, hroots⟩ := h
    obtain ⟨_, hnodup, hkeys⟩ := dupSinglePass_no_errors hdup
    rw [List.nil_append] at hkeys
    rw [hkeys] at hincr
    have hsorted := incrementalCheck_no_errors hincr
    refine ⟨hne, hnodup, ?_, ?_, ?_⟩
    · rw [hsorted]
      congr 1
      rw [List.length_insertionSort, List.length_map]
    · intro rec hrec cid hcid hpos
      have hflat := List.flatMap_eq_nil_iff.mp hrefs rec hrec
      simp only [List.append_eq_nil] at hflat
      have hentry := List.flatMap_eq_nil_iff.mp hflat.1.1 cid hcid
      by_cases hmem : cid ∈ (dupSinglePass records []).2
      · rwa [hkeys] at hmem
      · rw [if_pos ⟨hpos, hmem⟩] at hentry
        exact absurd hentry (by simp)
    · by_cases hcount : (records.filter (fun n => n.id ∉
          records.flatMap (fun m =>
            m.nextRooms.filter (fun i => 0 < i)))).length = 1
      · exact hcount
      · rw [if_neg hcount] at hroots
        exact absurd hroots (by simp)

/-- C4 amended witness: a concrete accepted two-record array has
duplicate-free contiguous ids, closed references and a unique root. -/
theorem validateArray_accepted_props_witness :
    ([⟨1, 1, some 0, JsVal.num 0, [2, 0, 0, 0, 0, 0]⟩,
      ⟨2, 2, none, JsVal.null, [0, 0, 0, 0, 0, 0]⟩] :
        List MapNodeData) ≠ [] ∧
    (([⟨1, 1, some 0, JsVal.num 0, [2, 0, 0, 0, 0, 0]⟩,
      ⟨2, 2, none, JsVal.null, [0, 0, 0, 0, 0, 0]⟩] :
        List MapNodeData).map MapNodeData.id).Nodup ∧
    (([⟨1, 1, some 0, JsVal.num 0, [2, 0, 0, 0, 0, 0]⟩,
      ⟨2, 2, none, JsVal.null, [0, 0, 0, 0, 0, 0]⟩] :
        List MapNodeData).map MapNodeData.id).insertionSort
        (fun a b => a ≤ b) =
      idSeq 1 ([⟨1, 1, some 0, JsVal.num 0, [2, 0, 0, 0, 0, 0]⟩,
        ⟨2, 2, none, JsVal.null, [0, 0, 0, 0, 0, 0]⟩] :
          List MapNodeData).length ∧
    (∀ rec ∈ ([⟨1, 1, some 0, JsVal.num 0, [2, 0, 0, 0, 0, 0]⟩,
      ⟨2, 2, none, JsVal.null, [0, 0, 0, 0, 0, 0]⟩] :
        List MapNodeData), ∀ cid ∈ rec.nextRooms, 0 < cid →
      cid ∈ ([⟨1, 1, some 0, JsVal.num 0, [2, 0, 0, 0, 0, 0]⟩,
        ⟨2, 2, none, JsVal.null, [0, 0, 0, 0, 0, 0]⟩] :
          List MapNodeData).map MapNodeData.id) ∧
    (([⟨1, 1, some 0, JsVal.num 0, [2, 0, 0, 0, 0, 0]⟩,
      ⟨2, 2, none, JsVal.null, [0, 0, 0, 0, 0, 0]⟩] :
        List MapNodeData).filter (fun n => n.id ∉
      ([⟨1, 1, some 0, JsVal.num 0, [2, 0, 0, 0, 0, 0]⟩,
        ⟨2, 2, none, JsVal.null, [0, 0, 0, 0, 0, 0]⟩] :
          List MapNodeData).flatMap (fun m =>
        m.nextRooms.filter (fun i => 0 < i)))).length = 1 :=
  validateArray_accepted_props _ (by decide)

/-! ## Generator proofs (C5, C6) -/

/-- One iteration of the `generateChildren` loop body: draw a monster,
create the child at `depth + 1`, and run `gen` on it. -/
def genLoopStep
    (gen : MapNode → Int → Int → Option MapNode → List Int → (Nat → ℚ) →
      Nat → MapNode × Int × Option MapNode × Nat)
    (parentDepth maxD counter : Int) (goal : Option MapNode)
    (avail : List Int) (r : Nat → ℚ) (ri : Nat) :
    MapNode × Int × Option MapNode × Nat :=
  gen (mkMapNode counter (parentDepth + 1) maxD
      (getRandomMonsterIndexForDepth (parentDepth + 1) maxD avail r ri).1)
    maxD (counter + 1) goal avail r
    (getRandomMonsterIndexForDepth (parentDepth + 1) maxD avail r ri).2

theorem genChildrenLoop_succ
    (gen : MapNode → Int → Int → Option MapNode → List Int → (Nat → ℚ) →
      Nat → MapNode × Int × Option MapNode × Nat)
    (k slot : Nat) (parentDepth maxD counter : Int)
    (goal : Option MapNode) (avail : List Int) (r : Nat → ℚ) (ri : Nat)
    (accC : List MapNode) (accNR : List Int) :
    genChildrenLoop gen (k + 1) slot parentDepth maxD counter goal avail
      r ri accC accNR =
    genChildrenLoop gen k (slot + 1) parentDepth maxD
      (genLoopStep gen parentDepth maxD counter goal avail r ri).2.1
      (match (genLoopStep gen parentDepth maxD counter goal avail r
          ri).2.2.1 with
        | some g => some g
        | none => goal)
      avail r
      (genLoopStep gen parentDepth maxD counter goal avail r ri).2.2.2
      (accC ++ [(genLoopStep gen parentDepth maxD counter goal avail r
        ri).1])
      (accNR.set slot counter) := rfl

/-- Shape of the shared GOAL node during generation: it lives at
`maxDepth`, is a GOAL room, and has no children (hence its unfolding is
just itself). -/
def GoalShape (maxD : Int) (g : MapNode) : Prop :=
  g.depth = maxD ∧ g.roomType = RoomTypeGOAL ∧ g.children = []

theorem subnodes_goalShape {maxD : Int} {g : MapNode}
    (h : GoalShape maxD g) : subnodes g = [g] := by
  rw [subnodes_def, h.2.2]
  rfl

theorem mem_set_zero {l : List Int} (h : l ≠ []) (v : Int) :
    v ∈ l.set 0 v := by
  cases l with
  | nil => exact absurd rfl h
  | cons x xs => exact List.mem_cons_self _ _

theorem mkMapNode_roomType_battle {i d maxD mi : Int} (h : d < maxD) :
    (mkMapNode i d maxD mi).roomType = RoomTypeBATTLE := by
  rw [mkMapNode]
  simp only [MapNode.roomType_mk]
  rw [if_neg (by omega)]

/-- The conclusions of `generateChildren` on a fresh BATTLE node below
`maxDepth`: every node of the result unfolding stays at depth at most
`maxDepth`, and a single shared GOAL node is returned, is the unique
depth-`maxDepth` node of the result, and is linked from every
depth-`maxDepth − 1` node. -/
def GenConc (res : MapNode × Int × Option MapNode × Nat)
    (sg : Option MapNode) (maxD : Int) : Prop :=
  (∀ n ∈ subnodes res.1, n.depth ≤ maxD) ∧
  ∃ gl, res.2.2.1 = some gl ∧ GoalShape maxD gl ∧
    (∀ g0, sg = some g0 → gl = g0) ∧ gl ∈ subnodes res.1 ∧
    (∀ n ∈ subnodes res.1, n.depth = maxD → n = gl) ∧
    (∀ n ∈ subnodes res.1, n.depth = maxD - 1 → gl.id ∈ n.nextRooms)

/-- Per-child goal facts accumulated by the loop. -/
def ChildGoalFacts (maxD : Int) (g : MapNode) (c : MapNode) : Prop :=
  g ∈ subnodes c ∧ (∀ n ∈ subnodes c, n.depth = maxD → n = g) ∧
    (∀ n ∈ subnodes c, n.depth = maxD - 1 → g.id ∈ n.nextRooms)

theorem genChildrenLoop_goal_spec
    (gen : MapNode → Int → Int → Option MapNode → List Int → (Nat → ℚ) →
      Nat → MapNode × Int × Option MapNode × Nat)
    (parentDepth maxD : Int) (avail : List Int) (r : Nat → ℚ)
    (hpd : parentDepth + 2 ≤ maxD)
    (hgen : ∀ self counter sg ri, self.depth = parentDepth + 1 →
      self.roomType = RoomTypeBATTLE → self.nextRooms ≠ [] →
      (∀ g, sg = some g → GoalShape maxD g) →
      GenConc (gen self maxD counter sg avail r ri) sg maxD) :
    ∀ (k slot : Nat) (counter : Int) (goal : Option MapNode) (ri : Nat)
      (accC : List MapNode) (accNR : List Int),
      (∀ c ∈ accC, ∀ n ∈ subnodes c, n.depth ≤ maxD) →
      (∀ g, goal = some g → GoalShape maxD g ∧
        ∀ c ∈ accC, ChildGoalFacts maxD g c) →
      (goal = none → accC = []) →
      (∀ c ∈ (genChildrenLoop gen k slot parentDepth maxD counter goal
          avail r ri accC accNR).1, ∀ n ∈ subnodes c, n.depth ≤ maxD) ∧
      (genChildrenLoop gen k slot parentDepth maxD counter goal avail r
        ri accC accNR).1.length = accC.length + k ∧
      (∀ g, (genChildrenLoop gen k slot parentDepth maxD counter goal
          avail r ri accC accNR).2.2.2.1 = some g →
        GoalShape maxD g ∧ (∀ g0, goal = some g0 → g = g0) ∧
        ∀ c ∈ (genChildrenLoop gen k slot parentDepth maxD counter goal
          avail r ri accC accNR).1, ChildGoalFacts maxD g c) ∧
      ((0 < k ∨ (∃ g0, goal = some g0)) →
        ∃ g, (genChildrenLoop gen k slot parentDepth maxD counter goal
          avail r ri accC accNR).2.2.2.1 = some g) := by
  intro k
  induction k with
  | zero =>
    intro slot counter goal ri accC accNR haccA haccB hnone
    rw [genChildrenLoop]
    dsimp only
    refine ⟨haccA, by omega, ?_, ?_⟩
    · intro g hg
      obtain ⟨hshape, hall⟩ := haccB g hg
      refine ⟨hshape, ?_, hall⟩
      intro g0 hg0
      rw [hg0] at hg
      exact (Option.some_injective _ hg).symm
    · rintro (hk | ⟨g0, hg0⟩)
      · omega
      · exact ⟨g0, hg0⟩
  | succ k ih =>
    intro slot counter goal ri accC accNR haccA haccB hnone
    rw [genChildrenLoop_succ]
    have hchild : GenConc (genLoopStep gen parentDepth maxD counter goal
        avail r ri) goal maxD := by
      rw [genLoopStep]
      refine hgen _ _ _ _ ?_ (mkMapNode_roomType_battle (by omega)) ?_
        (fun g hg => (haccB g hg).1)
      · rw [mkMapNode]; rfl
      · rw [mkMapNode]; simp
    obtain ⟨hA, gl, hgl, hshape, hpres, hmem, huniq, hlink⟩ := hchild
    simp only [hgl]
    have haccA' : ∀ c ∈ accC ++
        [(genLoopStep gen parentDepth maxD counter goal avail r ri).1],
        ∀ n ∈ subnodes c, n.depth ≤ maxD := by
      intro c hc
      rcases List.mem_append.mp hc with hc | hc
      · exact haccA c hc
      · rw [List.mem_singleton.mp hc]
        exact hA
    have haccB' : ∀ g, (some gl : Option MapNode) = some g →
        GoalShape maxD g ∧ ∀ c ∈ accC ++
          [(genLoopStep gen parentDepth maxD counter goal avail r ri).1],
          ChildGoalFacts maxD g c := by
      intro g hg
      have hggl : gl = g := Option.some_injective _ hg
      subst hggl
      refine ⟨hshape, ?_⟩
      intro c hc
      rcases List.mem_append.mp hc with hc | hc
      · cases hgoal : goal with
        | none =>
          rw [hnone hgoal] at hc
          exact absurd hc (by simp)
        | some g0 =>
          obtain ⟨_, hall⟩ := haccB g0 hgoal
          rw [hpres g0 hgoal]
          exact hall c hc
      · rw [List.mem_singleton.mp hc]
        exact ⟨hmem, huniq, hlink⟩
    obtain ⟨h1, h2, h3, h4⟩ := ih (slot + 1)
      (genLoopStep gen parentDepth maxD counter goal avail r ri).2.1
      (some gl)
      (genLoopStep gen parentDepth maxD counter goal avail r ri).2.2.2
      (accC ++
        [(genLoopStep gen parentDepth maxD counter goal avail r ri).1])
      (accNR.set slot counter)
      haccA' haccB' (fun h => Option.noConfusion h)
    refine ⟨h1, ?_, ?_, ?_⟩
    · rw [h2, List.length_append]
      simp only [List.length_singleton]
      omega
    · intro g hg
      obtain ⟨hs, hp, hall⟩ := h3 g hg
      refine ⟨hs, ?_, hall⟩
      intro g0 hg0
      have hgeq : g = gl := hp gl rfl
      rw [hgeq]
      exact hpres g0 hg0
    · intro _
      exact h4 (Or.inr ⟨gl, rfl⟩)

theorem setPenultimate_genConc {self g : MapNode} {maxD : Int}
    (hd : self.depth = maxD - 1) (hnr : self.nextRooms ≠ [])
    (hg : GoalShape maxD g) :
    (∀ n ∈ subnodes (setPenultimate self g), n.depth ≤ maxD) ∧
    g ∈ subnodes (setPenultimate self g) ∧
    (∀ n ∈ subnodes (setPenultimate self g), n.depth = maxD → n = g) ∧
    (∀ n ∈ subnodes (setPenultimate self g), n.depth = maxD - 1 →
      g.id ∈ n.nextRooms) := by
  have hsub : subnodes (setPenultimate self g) =
      setPenultimate self g :: [g] := by
    rw [setPenultimate, subnodes_def]
    simp only [MapNode.children_mk, List.flatMap_cons, List.flatMap_nil,
      List.append_nil]
    rw [subnodes_goalShape hg]
  have hself : (setPenultimate self g).depth = self.depth := by
    rw [setPenultimate]; rfl
  rw [hsub]
  refine ⟨?_, ?_, ?_, ?_⟩
  · intro n hn
    rcases List.mem_cons.mp hn with rfl | hn
    · rw [hself, hd]; omega
    · rw [List.mem_singleton.mp hn, hg.1]
  · exact List.mem_cons_of_mem _ (List.mem_singleton_self _)
  · intro n hn hdep
    rcases List.mem_cons.mp hn with rfl | hn
    · rw [hself, hd] at hdep; omega
    · exact List.mem_singleton.mp hn
  · intro n hn hdep
    rcases List.mem_cons.mp hn with rfl | hn
    · rw [setPenultimate]
      simp only [MapNode.nextRooms_mk]
      exact mem_set_zero hnr g.id
    · rw [List.mem_singleton.mp hn] at hdep
      rw [hg.1] at hdep
      omega

theorem generateChildren_goal_spec (f : Nat) :
    ∀ (self : MapNode) (maxD counter : Int) (sg : Option MapNode)
      (avail : List Int) (r : Nat → ℚ) (ri : Nat),
      self.depth + ((f : Int) + 1) = maxD →
      self.roomType = RoomTypeBATTLE →
      self.nextRooms ≠ [] →
      (∀ g, sg = some g → GoalShape maxD g) →
      GenConc (generateChildren (f + 1) self maxD counter sg avail r ri)
        sg maxD := by
  induction f with
  | zero =>
    intro self maxD counter sg avail r ri hdepth hbattle hnr hsg
    simp only [generateChildren]
    rw [if_neg (by
      rw [hbattle]
      push_neg
      refine ⟨by omega, by rw [RoomTypeBATTLE, RoomTypeGOAL]; omega⟩)]
    rw [if_pos (by omega)]
    cases hsgc : sg with
    | some g =>
      dsimp only
      have hg := hsg g hsgc
      obtain ⟨hc1, hc2, hc3, hc4⟩ :=
        setPenultimate_genConc (by omega) hnr hg
      refine ⟨hc1, g, rfl, hg, ?_, hc2, hc3, hc4⟩
      intro g0 h0
      exact Option.some_injective _ h0
    | none =>
      dsimp only
      have hg : GoalShape maxD
          (mkSharedGoal counter (self.depth + 1) maxD) := by
        refine ⟨?_, rfl, rfl⟩
        rw [mkSharedGoal, mkMapNode]
        simp only [MapNode.depth_mk]
        omega
      obtain ⟨hc1, hc2, hc3, hc4⟩ :=
        setPenultimate_genConc (by omega) hnr hg
      refine ⟨hc1, mkSharedGoal counter (self.depth + 1) maxD, rfl, hg,
        ?_, hc2, hc3, hc4⟩
      intro g0 h0
      cases h0
  | succ f ih =>
    intro self maxD counter sg avail r ri hdepth hbattle hnr hsg
    simp only [generateChildren]
    rw [if_neg (by
      rw [hbattle]
      push_neg
      refine ⟨by omega, by rw [RoomTypeBATTLE, RoomTypeGOAL]; omega⟩)]
    rw [if_neg (by omega)]
    obtain ⟨hL1, hL2, hL3, hL4⟩ := genChildrenLoop_goal_spec
      (generateChildren (f + 1)) self.depth maxD avail r (by omega)
      (fun s c g i h1 h2 h3 h4 => ih s maxD c g avail r i
        (by rw [h1]; omega) h2 h3 h4)
      ((⌊r ri * 4⌋).toNat + 1) 0 counter sg (ri + 1) [] self.nextRooms
      (by simp) (fun g hg => ⟨hsg g hg, by simp⟩) (fun _ => rfl)
    obtain ⟨gl, hgl⟩ := hL4 (Or.inl (by omega))
    obtain ⟨hshape, hpres, hall⟩ := hL3 gl hgl
    have hres1ne : (genChildrenLoop (generateChildren (f + 1))
        ((⌊r ri * 4⌋).toNat + 1) 0 self.depth maxD counter sg avail r
        (ri + 1) [] self.nextRooms).1 ≠ [] := by
      intro hnil
      rw [hnil] at hL2
      simp at hL2
    refine ⟨?_, gl, hgl, hshape, hpres, ?_, ?_, ?_⟩
    · intro n hn
      rcases subnodes_cases hn with rfl | ⟨c, hc, hnc⟩
      · simp only [MapNode.depth_mk]
        omega
      · exact hL1 c (by simpa using hc) n hnc
    · obtain ⟨c, hc⟩ := List.exists_mem_of_ne_nil _ hres1ne
      exact mem_subnodes_of_child (by simpa using hc) (hall c hc).1
    · intro n hn hd
      rcases subnodes_cases hn with rfl | ⟨c, hc, hnc⟩
      · simp only [MapNode.depth_mk] at hd
        omega
      · exact (hall c (by simpa using hc)).2.1 n hnc hd
    · intro n hn hd
      rcases subnodes_cases hn with rfl | ⟨c, hc, hnc⟩
      · simp only [MapNode.depth_mk] at hd
        omega
      · exact (hall c (by simpa using hc)).2.2 n hnc hd

/-- C6: for every graph produced by `generateMap` with `maxDepth = d ≥ 1`
(under the `Math.random ∈ [0, 1)` contract), every node of the graph has
depth at most `d`, there is a GOAL node at depth `d` that every
depth-`d` node equals (so exactly one node reaches depth `d`), and every
node at depth `d − 1` lists that shared GOAL node's id among its
`nextRooms`. -/
theorem generateMap_goal_convergence (d : Int) (avail : List Int)
    (r : Nat → ℚ) (hd : 1 ≤ d) (_hr : ∀ n, 0 ≤ r n ∧ r n < 1) :
    (∀ n ∈ subnodes (generateMap d avail r).1, n.depth ≤ d) ∧
    ∃ gl, gl ∈ subnodes (generateMap d avail r).1 ∧ gl.depth = d ∧
      gl.roomType = RoomTypeGOAL ∧
      (∀ n ∈ subnodes (generateMap d avail r).1, n.depth = d → n = gl) ∧
      (∀ n ∈ subnodes (generateMap d avail r).1, n.depth = d - 1 →
        gl.id ∈ n.nextRooms) := by
  have hf : d.toNat = (d.toNat - 1) + 1 := by omega
  have hgm : (generateMap d avail r).1 =
      (generateChildren ((d.toNat - 1) + 1) (mkMapNode 1 0 d 0) d 2 none
        avail r 0).1 := by
    rw [generateMap, ← hf]
  have hspec := generateChildren_goal_spec (d.toNat - 1)
    (mkMapNode 1 0 d 0) d 2 none avail r 0
    (by rw [mkMapNode]; simp only [MapNode.depth_mk]; omega)
    (mkMapNode_roomType_battle (by omega))
    (by rw [mkMapNode]; simp)
    (fun g hg => by cases hg)
  obtain ⟨hA, gl, _, hshape, _, hmem, huniq, hlink⟩ := hspec
  rw [hgm]
  exact ⟨hA, gl, hmem, hshape.1, hshape.2.1, huniq, hlink⟩

/-- C6 witness at `d = 2` with the constant-zero random stream. -/
theorem generateMap_goal_convergence_witness :
    (∀ n ∈ subnodes (generateMap 2 [0, 1, 2, 3] (fun _ => 0)).1,
      n.depth ≤ 2) ∧
    ∃ gl, gl ∈ subnodes (generateMap 2 [0, 1, 2, 3] (fun _ => 0)).1 ∧
      gl.depth = 2 ∧ gl.roomType = RoomTypeGOAL ∧
      (∀ n ∈ subnodes (generateMap 2 [0, 1, 2, 3] (fun _ => 0)).1,
        n.depth = 2 → n = gl) ∧
      (∀ n ∈ subnodes (generateMap 2 [0, 1, 2, 3] (fun _ => 0)).1,
        n.depth = 2 - 1 → gl.id ∈ n.nextRooms) :=
  generateMap_goal_convergence 2 [0, 1, 2, 3] (fun _ => 0)
    (by norm_num) (fun n => by norm_num)

/-- C5 counterexample: invoking the generator with an empty available
monster index list does not fail — there is no `EmptyCatalog` condition
anywhere in the code — and a two-node graph (root plus shared goal) is
produced for `maxDepth = 1`. -/
theorem generateMap_empty_catalog_counterexample :
    (generateMap 1 [] (fun _ => 0)).1 =
      MapNode.mk 1 0 1 0 [2, 0, 0, 0, 0, 0]
        [MapNode.mk 2 1 2 0 [0, 0, 0, 0, 0, 0] []] ∧
    (generateMap 1 [] (fun _ => 0)).2 = 3 :=
  ⟨rfl, rfl⟩

theorem getRandomMonsterIndexForDepth_empty (d maxD : Int) (r : Nat → ℚ)
    (ri : Nat) :
    getRandomMonsterIndexForDepth d maxD [] r ri = (0, ri) := by
  rw [getRandomMonsterIndexForDepth]
  simp

theorem mkMapNode_monsterIndex_zero (i d maxD : Int) :
    (mkMapNode i d maxD 0).monsterIndex1 = 0 := by
  rw [mkMapNode]
  simp only [MapNode.monsterIndex1_mk]
  split <;> rfl

theorem genChildrenLoop_empty_monsters
    (gen : MapNode → Int → Int → Option MapNode → List Int → (Nat → ℚ) →
      Nat → MapNode × Int × Option MapNode × Nat)
    (parentDepth maxD : Int) (r : Nat → ℚ)
    (hgen : ∀ self counter sg ri, self.monsterIndex1 = 0 →
      (∀ g, sg = some g → ∀ m ∈ subnodes g, m.monsterIndex1 = 0) →
      (∀ m ∈ subnodes (gen self maxD counter sg [] r ri).1,
        m.monsterIndex1 = 0) ∧
      (∀ g, (gen self maxD counter sg [] r ri).2.2.1 = some g →
        ∀ m ∈ subnodes g, m.monsterIndex1 = 0)) :
    ∀ (k slot : Nat) (counter : Int) (goal : Option MapNode) (ri : Nat)
      (accC : List MapNode) (accNR : List Int),
      (∀ c ∈ accC, ∀ m ∈ subnodes c, m.monsterIndex1 = 0) →
      (∀ g, goal = some g → ∀ m ∈ subnodes g, m.monsterIndex1 = 0) →
      (∀ c ∈ (genChildrenLoop gen k slot parentDepth maxD counter goal
          [] r ri accC accNR).1, ∀ m ∈ subnodes c,
        m.monsterIndex1 = 0) ∧
      (∀ g, (genChildrenLoop gen k slot parentDepth maxD counter goal
          [] r ri accC accNR).2.2.2.1 = some g →
        ∀ m ∈ subnodes g, m.monsterIndex1 = 0) := by
  intro k
  induction k with
  | zero =>
    intro slot counter goal ri accC accNR haccC hgoal
    rw [genChildrenLoop]
    exact ⟨haccC, hgoal⟩
  | succ k ih =>
    intro slot counter goal ri accC accNR haccC hgoal
    rw [genChildrenLoop_succ]
    have hchild := hgen
      (mkMapNode counter (parentDepth + 1) maxD
        (getRandomMonsterIndexForDepth (parentDepth + 1) maxD [] r ri).1)
      (counter + 1) goal
      (getRandomMonsterIndexForDepth (parentDepth + 1) maxD [] r ri).2
      (by
        rw [getRandomMonsterIndexForDepth_empty]
        exact mkMapNode_monsterIndex_zero _ _ _)
      hgoal
    obtain ⟨hcm, hgm⟩ := hchild
    have hstep : genLoopStep gen parentDepth maxD counter goal [] r ri =
        gen (mkMapNode counter (parentDepth + 1) maxD
          (getRandomMonsterIndexForDepth (parentDepth + 1) maxD [] r
            ri).1) maxD (counter + 1) goal [] r
          (getRandomMonsterIndexForDepth (parentDepth + 1) maxD [] r
            ri).2 := rfl
    cases hres : (genLoopStep gen parentDepth maxD counter goal [] r
        ri).2.2.1 with
    | some g2 =>
      simp only [hres]
      refine ih (slot + 1) _ (some g2) _ _ _ ?_ ?_
      · intro c hc
        rcases List.mem_append.mp hc with hc | hc
        · exact haccC c hc
        · rw [List.mem_singleton.mp hc, hstep]
          exact hcm
      · intro g hg
        have : g2 = g := Option.some_injective _ hg
        subst this
        rw [hstep] at hres
        exact hgm g2 hres
    | none =>
      simp only [hres]
      refine ih (slot + 1) _ goal _ _ _ ?_ hgoal
      intro c hc
      rcases List.mem_append.mp hc with hc | hc
      · exact haccC c hc
      · rw [List.mem_singleton.mp hc, hstep]
        exact hcm

theorem generateChildren_empty_monsters (fuel : Nat) :
    ∀ (self : MapNode) (maxD counter : Int) (sg : Option MapNode)
      (r : Nat → ℚ) (ri : Nat),
      self.monsterIndex1 = 0 →
      (∀ g, sg = some g → ∀ m ∈ subnodes g, m.monsterIndex1 = 0) →
      (∀ m ∈ subnodes (generateChildren fuel self maxD counter sg [] r
        ri).1, m.monsterIndex1 = 0) ∧
      (∀ g, (generateChildren fuel self maxD counter sg [] r ri).2.2.1 =
        some g → ∀ m ∈ subnodes g, m.monsterIndex1 = 0) := by
  induction fuel with
  | zero =>
    intro self maxD counter sg r ri hself hsg
    rw [generateChildren]
    constructor
    · intro m hm
      rw [goalify, subnodes_def] at hm
      simp only [MapNode.children_mk, List.flatMap_nil] at hm
      rw [List.mem_singleton.mp hm]
      rfl
    · intro g hg
      cases hg
  | succ fuel ih =>
    intro self maxD counter sg r ri hself hsg
    simp only [generateChildren]
    by_cases hbase : maxD ≤ self.depth ∨ self.roomType = RoomTypeGOAL
    · rw [if_pos hbase]
      constructor
      · intro m hm
        rw [goalify, subnodes_def] at hm
        simp only [MapNode.children_mk, List.flatMap_nil] at hm
        rw [List.mem_singleton.mp hm]
        rfl
      · intro g hg
        cases hg
    · rw [if_neg hbase]
      by_cases hpen : self.depth = maxD - 1
      · rw [if_pos hpen]
        cases hsgc : sg with
        | some g =>
          dsimp only
          have hgz := hsg g hsgc
          constructor
          · intro m hm
            rw [setPenultimate, subnodes_def] at hm
            simp only [MapNode.children_mk, List.flatMap_cons,
              List.flatMap_nil, List.append_nil] at hm
            rcases List.mem_cons.mp hm with rfl | hm
            · exact hself
            · exact hgz m hm
          · intro g2 hg2
            have : g = g2 := Option.some_injective _ hg2
            subst this
            exact hgz
        | none =>
          dsimp only
          have hgz : ∀ m ∈ subnodes
              (mkSharedGoal counter (self.depth + 1) maxD),
              m.monsterIndex1 = 0 := by
            intro m hm
            rw [mkSharedGoal, subnodes_def] at hm
            simp only [MapNode.children_mk] at hm
            rcases List.mem_cons.mp hm with rfl | hm
            · rfl
            · rw [mkMapNode] at hm
              simp only [MapNode.children_mk, List.flatMap_nil] at hm
              exact absurd hm (by simp)
          constructor
          · intro m hm
            rw [setPenultimate, subnodes_def] at hm
            simp only [MapNode.children_mk, List.flatMap_cons,
              List.flatMap_nil, List.append_nil] at hm
            rcases List.mem_cons.mp hm with rfl | hm
            · exact hself
            · exact hgz m hm
          · intro g2 hg2
            have := Option.some_injective _ hg2
            rw [← this]
            exact hgz
      · rw [if_neg hpen]
        obtain ⟨hL1, hL2⟩ := genChildrenLoop_empty_monsters
          (generateChildren fuel) self.depth maxD r
          (fun s c g i h1 h2 => ih s maxD c g r i h1 h2)
          ((⌊r ri * 4⌋).toNat + 1) 0 counter sg (ri + 1) []
          self.nextRooms (by simp) hsg
        constructor
        · intro m hm
          rcases subnodes_cases hm with rfl | ⟨c, hc, hmc⟩
          · exact hself
          · exact hL1 c (by simpa using hc) m hmc
        · exact hL2

/-- C5 amended: invoking `generateMap` with an empty available monster
index list does **not** fail with an `EmptyCatalog` condition — the code
has no failure path at all.  It produces a graph rooted at id 1 in which
every node carries `monsterIndex1 = 0`, because
`getRandomMonsterIndexForDepth` returns 0 whenever the available index
list is empty. -/
theorem generateChildren_preserves_id (fuel : Nat) (self : MapNode)
    (maxD counter : Int) (sg : Option MapNode) (avail : List Int)
    (r : Nat → ℚ) (ri : Nat) :
    (generateChildren fuel self maxD counter sg avail r ri).1.id =
      self.id := by
  cases fuel with
  | zero => rfl
  | succ f =>
    simp only [generateChildren]
    by_cases h1 : maxD ≤ self.depth ∨ self.roomType = RoomTypeGOAL
    · rw [if_pos h1]; rfl
    · rw [if_neg h1]
      by_cases h2 : self.depth = maxD - 1
      · rw [if_pos h2]
        cases sg <;> rfl
      · rw [if_neg h2]; rfl

theorem generateMap_empty_catalog_spec (d : Int) (r : Nat → ℚ) :
    (generateMap d [] r).1.id = 1 ∧
    ∀ n ∈ subnodes (generateMap d [] r).1, n.monsterIndex1 = 0 := by
  constructor
  · rw [generateMap]
    exact generateChildren_preserves_id _ _ _ _ _ _ _ _
  · rw [generateMap]
    exact (generateChildren_empty_monsters d.toNat (mkMapNode 1 0 d 0) d
      2 none r 0 (mkMapNode_monsterIndex_zero _ _ _)
      (fun g hg => by cases hg)).1

/-- C5 amended witness at `d = 1`: the produced two-node graph has root
id 1 and all-zero monster indices. -/
theorem generateMap_empty_catalog_spec_witness :
    (generateMap 1 [] (fun _ => 0)).1.id = 1 ∧
    ∀ n ∈ subnodes (generateMap 1 [] (fun _ => 0)).1,
      n.monsterIndex1 = 0 :=
  generateMap_empty_catalog_spec 1 (fun _ => 0)

/-! ## Serializer proofs: BFS collection (C7, C2) -/

/-- Weak id-consistency of the unfolding: subtrees with the same id
agree on every field the serializer reads and on their lists of child
ids.  `IdCoherent` implies it; the trees produced by `fromFlatJSON`
satisfy it even though their copies of a convergent node differ in
`depth`. -/
def IdUniform (g : MapNode) : Prop :=
  ∀ a ∈ subnodes g, ∀ b ∈ subnodes g, a.id = b.id →
    a.roomType = b.roomType ∧ a.monsterIndex1 = b.monsterIndex1 ∧
    a.nextRooms = b.nextRooms ∧
    a.children.map MapNode.id = b.children.map MapNode.id

instance (g : MapNode) : Decidable (IdUniform g) := by
  unfold IdUniform; infer_instance

theorem idCoherent_idUniform {g : MapNode} (h : IdCoherent g) :
    IdUniform g := by
  intro a ha b hb hab
  rw [h a ha b hb hab]
  exact ⟨rfl, rfl, rfl, rfl⟩

/-- The closure invariant of the `toFlatJSON` BFS: every child of an
already-visited id is either itself visited or still waiting (by id) in
the queue. -/
def CL (G : MapNode) (vis : List Int) (q : List MapNode) : Prop :=
  ∀ n ∈ subnodes G, n.id ∈ vis → ∀ c ∈ n.children,
    c.id ∈ vis ∨ ∃ m ∈ q, m.id = c.id

/-- Children count of the id `i` in `G`, read off the first subtree
carrying it. -/
def ccount (G : MapNode) (i : Int) : Nat :=
  match (subnodes G).find? (fun n => n.id = i) with
  | some n => n.children.length
  | none => 0

/-- The distinct ids of the unfolding, as a finset. -/
def gidsF (G : MapNode) : Finset Int :=
  ((subnodes G).map MapNode.id).toFinset

/-- Termination measure of the BFS: queue length plus, for every not yet
visited id, one pop and as many pushes as it has children. -/
def bfsMeasure (G : MapNode) (q : List MapNode) (vis : List Int) : Nat :=
  q.length + ((gidsF G).filter (fun i => i ∉ vis)).sum
    (fun i => 1 + ccount G i)

theorem mem_subnodes_of_children {G n c : MapNode} (hn : n ∈ subnodes G)
    (hc : c ∈ n.children) : c ∈ subnodes G :=
  subnodes_trans (child_mem_subnodes hc) hn

theorem ccount_eq {G n : MapNode} (hU : IdUniform G)
    (hn : n ∈ subnodes G) : ccount G n.id = n.children.length := by
  rw [ccount]
  cases hfind : (subnodes G).find? (fun m => m.id = n.id) with
  | none =>
    have := List.find?_eq_none.mp hfind n hn
    simp at this
  | some m =>
    have hmem := List.mem_of_find?_eq_some hfind
    have hid : m.id = n.id := by
      have := List.find?_some hfind
      simpa using this
    have := (hU m hmem n hn hid).2.2.2
    have hlen := congrArg List.length this
    simpa using hlen

theorem subnodes_within_flatMap {c : MapNode} (cs : List MapNode)
    (hc : c ∈ cs) : (subnodes c).IsInfix (cs.flatMap subnodes) := by
  induction cs with
  | nil => exact absurd hc (by simp)
  | cons d rest ih =>
    rw [List.flatMap_cons]
    rcases List.mem_cons.mp hc with rfl | hc2
    · exact (List.prefix_append _ _).isInfix
    · exact (ih hc2).trans (List.suffix_append _ _).isInfix

theorem subnodes_within {G n : MapNode} (hn : n ∈ subnodes G) :
    (subnodes n).IsInfix (subnodes G) := by
  rcases subnodes_cases hn with rfl | ⟨c, hc, hnc⟩
  · exact List.infix_refl _
  · refine (subnodes_within hnc).trans
      ((subnodes_within_flatMap G.children hc).trans ?_)
    rw [subnodes_def G]
    exact (List.suffix_cons _ _).isInfix
termination_by sizeOf G
decreasing_by exact sizeOf_lt_of_mem_children hc

theorem children_length_lt {G n : MapNode} (hn : n ∈ subnodes G) :
    n.children.length < (subnodes G).length := by
  have hinfix := subnodes_within hn
  have hle := hinfix.length_le
  have : n.children.length < (subnodes n).length := by
    rw [subnodes_def]
    simp only [List.length_cons]
    have : n.children.length ≤ (n.children.flatMap subnodes).length := by
      induction n.children with
      | nil => simp
      | cons c rest ih =>
        rw [List.flatMap_cons, List.length_append, List.length_cons]
        have hc : 1 ≤ (subnodes c).length := by
          rw [subnodes_def]; simp
        omega
    omega
  omega

theorem ccount_le (G : MapNode) (i : Int) :
    ccount G i ≤ (subnodes G).length := by
  rw [ccount]
  cases hfind : (subnodes G).find? (fun n => n.id = i) with
  | none => simp
  | some n =>
    exact le_of_lt (children_length_lt (List.mem_of_find?_eq_some hfind))

theorem bfsMeasure_init_le (G : MapNode) :
    bfsMeasure G [G] [] ≤
      (subnodes G).length * (subnodes G).length +
        (subnodes G).length + 1 := by
  rw [bfsMeasure]
  simp only [List.length_singleton]
  have hcard : ((gidsF G).filter (fun i => i ∉ ([] : List Int))).card ≤
      (subnodes G).length := by
    calc ((gidsF G).filter (fun i => i ∉ ([] : List Int))).card
        ≤ (gidsF G).card := Finset.card_filter_le _ _
      _ ≤ ((subnodes G).map MapNode.id).length := List.toFinset_card_le _
      _ = (subnodes G).length := by rw [List.length_map]
  have hsum : ((gidsF G).filter (fun i => i ∉ ([] : List Int))).sum
      (fun i => 1 + ccount G i) ≤
      ((gidsF G).filter (fun i => i ∉ ([] : List Int))).card *
        (1 + (subnodes G).length) := by
    apply Finset.sum_le_card_nsmul
    intro i _
    have := ccount_le G i
    omega
  have hmul : ((gidsF G).filter (fun i => i ∉ ([] : List Int))).card *
      (1 + (subnodes G).length) ≤
      (subnodes G).length * (1 + (subnodes G).length) :=
    Nat.mul_le_mul_right _ hcard
  have hgoal := le_trans hsum hmul
  nlinarith [hgoal]

theorem bfsPushes_sound {n : MapNode} {visited : List Int} {m : MapNode}
    (hm : m ∈ bfsPushes n visited) :
    m ∈ n.children ∧ m.id ∉ (n.id :: visited) := by
  rw [bfsPushes] at hm
  obtain ⟨cid, _, hf⟩ := List.mem_filterMap.mp hm
  by_cases hpos : 0 < cid
  · rw [if_pos hpos] at hf
    cases hfind : n.children.find? (fun c => c.id = cid) with
    | none => rw [hfind] at hf; cases hf
    | some c =>
      rw [hfind] at hf
      try dsimp only at hf
      by_cases hin : c.id ∈ n.id :: visited
      · rw [if_pos hin] at hf; cases hf
      · rw [if_neg hin] at hf
        cases hf
        exact ⟨List.mem_of_find?_eq_some hfind, hin⟩
  · rw [if_neg hpos] at hf; cases hf

theorem filterMap_length_le_filter {A B : Type} (l : List A)
    (p : A → Bool) (f : A → Option B)
    (h : ∀ a, p a = false → f a = none) :
    (l.filterMap f).length ≤ (l.filter p).length := by
  induction l with
  | nil => simp
  | cons a rest ih =>
    rw [List.filterMap_cons, List.filter_cons]
    cases hfa : f a with
    | none =>
      cases hpa : p a with
      | false => simpa [hpa] using ih
      | true =>
        simp only [hpa, if_true, List.length_cons]
        omega
    | some b =>
      cases hpa : p a with
      | false => rw [h a hpa] at hfa; cases hfa
      | true =>
        simp only [hpa, if_true, List.length_cons]
        omega

theorem bfsPushes_length_le (n : MapNode) (visited : List Int) :
    (bfsPushes n visited).length ≤
      (n.nextRooms.filter (fun x => 0 < x)).length := by
  rw [bfsPushes]
  apply filterMap_length_le_filter
  intro a ha
  rw [if_neg (by simpa using ha)]

theorem bfsPushes_complete {n c : MapNode} {visited : List Int}
    (hmirror : n.children.map MapNode.id =
      n.nextRooms.filter (fun x => 0 < x))
    (hc : c ∈ n.children) (hnot : c.id ∉ (n.id :: visited)) :
    ∃ p ∈ bfsPushes n visited, p.id = c.id := by
  have hcid : c.id ∈ n.nextRooms.filter (fun x => 0 < x) := by
    rw [← hmirror]
    exact List.mem_map_of_mem _ hc
  have hcmem : c.id ∈ n.nextRooms := List.mem_of_mem_filter hcid
  have hcpos : 0 < c.id := by
    have := List.of_mem_filter hcid
    simpa using this
  cases hfind : n.children.find? (fun x => x.id = c.id) with
  | none =>
    have := List.find?_eq_none.mp hfind c hc
    simp at this
  | some c2 =>
    have hc2id : c2.id = c.id := by
      have := List.find?_some hfind
      simpa using this
    refine ⟨c2, ?_, hc2id⟩
    rw [bfsPushes]
    apply List.mem_filterMap.mpr
    refine ⟨c.id, hcmem, ?_⟩
    rw [if_pos hcpos, hfind]
    dsimp only
    rw [if_neg (by rw [hc2id]; exact hnot)]

theorem bfsMeasure_step {G n : MapNode} {vis : List Int}
    (queue : List MapNode) (hM : Mirror G) (hU : IdUniform G)
    (hnG : n ∈ subnodes G) (hvis : n.id ∉ vis) :
    bfsMeasure G (queue ++ bfsPushes n vis) (n.id :: vis) + 2 ≤
      bfsMeasure G (n :: queue) vis := by
  have hpush : (bfsPushes n vis).length ≤ n.children.length := by
    have h1 := bfsPushes_length_le n vis
    have h2 : (n.nextRooms.filter (fun x => 0 < x)).length =
        n.children.length := by
      have h3 := congrArg List.length (hM n hnG)
      simpa using h3.symm
    omega
  have hSerase : (gidsF G).filter (fun i => i ∉ (n.id :: vis)) =
      ((gidsF G).filter (fun i => i ∉ vis)).erase n.id := by
    ext i
    simp only [Finset.mem_filter, Finset.mem_erase, List.mem_cons,
      not_or]
    tauto
  have hidmem : n.id ∈ (gidsF G).filter (fun i => i ∉ vis) := by
    rw [Finset.mem_filter]
    refine ⟨?_, hvis⟩
    rw [gidsF, List.mem_toFinset]
    exact List.mem_map_of_mem _ hnG
  have hsum := Finset.add_sum_erase _ (fun i => 1 + ccount G i) hidmem
  simp only [ccount_eq hU hnG] at hsum
  rw [bfsMeasure, bfsMeasure, hSerase]
  simp only [List.length_append, List.length_cons]
  omega

theorem CL_closed_descend {G : MapNode} {S : List Int}
    (hCL : CL G S []) (n : MapNode) (hnG : n ∈ subnodes G)
    (hnS : n.id ∈ S) : ∀ m ∈ subnodes n, m.id ∈ S := by
  intro m hm
  rcases subnodes_cases hm with rfl | ⟨c, hc, hmc⟩
  · exact hnS
  · have hcS : c.id ∈ S := by
      rcases hCL n hnG hnS c hc with h | ⟨x, hx, _⟩
      · exact h
      · exact absurd hx (by simp)
    exact CL_closed_descend hCL c (mem_subnodes_of_children hnG hc) hcS
      m hmc
termination_by sizeOf n
decreasing_by exact sizeOf_lt_of_mem_children hc

theorem flattenCollect_spec (G : MapNode) (hM : Mirror G)
    (hU : IdUniform G) :
    ∀ (fuel : Nat) (q : List MapNode) (vis : List Int),
      (∀ n ∈ q, n ∈ subnodes G) →
      CL G vis q →
      bfsMeasure G q vis ≤ fuel →
      ((flattenCollect fuel q vis).map MapNode.id).Nodup ∧
      (∀ m ∈ flattenCollect fuel q vis, m ∈ subnodes G) ∧
      (∀ m ∈ flattenCollect fuel q vis, m.id ∉ vis) ∧
      CL G ((flattenCollect fuel q vis).map MapNode.id ++ vis) [] ∧
      (∀ n ∈ q, n.id ∈ vis ∨
        n.id ∈ (flattenCollect fuel q vis).map MapNode.id) := by
  intro fuel
  induction fuel with
  | zero =>
    intro q vis hq hCL hm
    have hq0 : q = [] := by
      rw [bfsMeasure] at hm
      have : q.length = 0 := by omega
      exact List.length_eq_zero.mp this
    subst hq0
    rw [flattenCollect]
    exact ⟨by simp, by simp, by simp, by simpa using hCL, by simp⟩
  | succ fuel ih =>
    intro q vis hq hCL hm
    cases q with
    | nil =>
      rw [flattenCollect]
      exact ⟨by simp, by simp, by simp, by simpa using hCL, by simp⟩
    | cons n rest =>
      by_cases hvis : n.id ∈ vis
      · rw [flattenCollect, if_pos hvis]
        have hCL2 : CL G vis rest := by
          intro m hmG hmvis c hc
          rcases hCL m hmG hmvis c hc with h | ⟨x, hx, hxid⟩
          · exact Or.inl h
          · rcases List.mem_cons.mp hx with rfl | hx2
            · exact Or.inl (hxid ▸ hvis)
            · exact Or.inr ⟨x, hx2, hxid⟩
        have hm2 : bfsMeasure G rest vis ≤ fuel := by
          rw [bfsMeasure] at hm ⊢
          simp only [List.length_cons] at hm
          omega
        obtain ⟨h1, h2, h3, h4, h5⟩ := ih rest vis
          (fun m hmm => hq m (List.mem_cons_of_mem _ hmm)) hCL2 hm2
        refine ⟨h1, h2, h3, h4, ?_⟩
        intro m hmm
        rcases List.mem_cons.mp hmm with rfl | hm3
        · exact Or.inl hvis
        · exact h5 m hm3
      · rw [flattenCollect, if_neg hvis]
        have hnG : n ∈ subnodes G := hq n (List.mem_cons_self _ _)
        have hq2 : ∀ m ∈ rest ++ bfsPushes n vis, m ∈ subnodes G := by
          intro m hmm
          rcases List.mem_append.mp hmm with h | h
          · exact hq m (List.mem_cons_of_mem _ h)
          · exact mem_subnodes_of_children hnG (bfsPushes_sound h).1
        have hCL2 : CL G (n.id :: vis) (rest ++ bfsPushes n vis) := by
          intro m hmG hmvis c hc
          rcases List.mem_cons.mp hmvis with heq | hmv
          · have huni := hU m hmG n hnG heq
            have hcid : c.id ∈ n.children.map MapNode.id := by
              rw [← huni.2.2.2]
              exact List.mem_map_of_mem _ hc
            by_cases hin : c.id ∈ n.id :: vis
            · exact Or.inl hin
            · obtain ⟨c2, hc2, hc2id⟩ := List.mem_map.mp hcid
              obtain ⟨p, hp, hpid⟩ := bfsPushes_complete (hM n hnG) hc2
                (by rw [hc2id]; exact hin)
              exact Or.inr ⟨p, List.mem_append_right _ hp,
                by rw [hpid, hc2id]⟩
          · rcases hCL m hmG hmv c hc with h | ⟨x, hx, hxid⟩
            · exact Or.inl (List.mem_cons_of_mem _ h)
            · rcases List.mem_cons.mp hx with rfl | hx2
              · exact Or.inl (by rw [← hxid]; exact List.mem_cons_self _ _)
              · exact Or.inr ⟨x, List.mem_append_left _ hx2, hxid⟩
        have hm2 : bfsMeasure G (rest ++ bfsPushes n vis)
            (n.id :: vis) ≤ fuel := by
          have := bfsMeasure_step rest hM hU hnG hvis
          omega
        obtain ⟨h1, h2, h3, h4, h5⟩ := ih (rest ++ bfsPushes n vis)
          (n.id :: vis) hq2 hCL2 hm2
        refine ⟨?_, ?_, ?_, ?_, ?_⟩
        · rw [List.map_cons, List.nodup_cons]
          refine ⟨?_, h1⟩
          intro hmem
          rcases List.mem_map.mp hmem with ⟨m, hmm, hid⟩
          exact h3 m hmm (by rw [hid]; exact List.mem_cons_self _ _)
        · intro m hmm
          rcases List.mem_cons.mp hmm with rfl | hm3
          · exact hnG
          · exact h2 m hm3
        · intro m hmm
          rcases List.mem_cons.mp hmm with rfl | hm3
          · exact hvis
          · exact fun hv => h3 m hm3 (List.mem_cons_of_mem _ hv)
        · intro m hmG hmS c hc
          have hmS2 : m.id ∈ (flattenCollect fuel
              (rest ++ bfsPushes n vis) (n.id :: vis)).map MapNode.id ++
              (n.id :: vis) := by
            simp only [List.map_cons, List.cons_append, List.mem_cons,
              List.mem_append] at hmS ⊢
            tauto
          rcases h4 m hmG hmS2 c hc with h | ⟨x, hx, _⟩
          · refine Or.inl ?_
            simp only [List.map_cons, List.cons_append, List.mem_cons,
              List.mem_append] at h ⊢
            tauto
          · exact absurd hx (by simp)
        · intro m hmm
          rcases List.mem_cons.mp hmm with rfl | hm3
          · exact Or.inr (by
              rw [List.map_cons]
              exact List.mem_cons_self _ _)
          · rcases h5 m (List.mem_append_left _ hm3) with h | h
            · rcases List.mem_cons.mp h with heq | hv
              · exact Or.inr (by
                  rw [List.map_cons, heq]
                  exact List.mem_cons_self _ _)
              · exact Or.inl hv
            · exact Or.inr (by
                rw [List.map_cons]
                exact List.mem_cons_of_mem _ h)

/-- The fuel `toFlatJSON` passes is enough: the collection visits every
distinct id of the unfolding exactly once. -/
theorem flattenCollect_full (G : MapNode) (hM : Mirror G)
    (hU : IdUniform G) :
    ((flattenCollect ((subnodes G).length * (subnodes G).length +
      (subnodes G).length + 1) [G] []).map MapNode.id).Nodup ∧
    (∀ m ∈ flattenCollect ((subnodes G).length * (subnodes G).length +
      (subnodes G).length + 1) [G] [], m ∈ subnodes G) ∧
    (∀ a ∈ subnodes G, a.id ∈ (flattenCollect
      ((subnodes G).length * (subnodes G).length +
        (subnodes G).length + 1) [G] []).map MapNode.id) := by
  obtain ⟨h1, h2, h3, h4, h5⟩ := flattenCollect_spec G hM hU
    ((subnodes G).length * (subnodes G).length + (subnodes G).length + 1)
    [G] []
    (by intro n hn; rw [List.mem_singleton.mp hn]; exact self_mem_subnodes G)
    (by intro n _ hnv c _; exact absurd hnv (by simp))
    (bfsMeasure_init_le G)
  refine ⟨h1, h2, ?_⟩
  have hGid : G.id ∈ (flattenCollect ((subnodes G).length *
      (subnodes G).length + (subnodes G).length + 1) [G] []).map
      MapNode.id := by
    rcases h5 G (List.mem_singleton_self _) with h | h
    · exact absurd h (by simp)
    · exact h
  have hCLS := h4
  rw [List.append_nil] at hCLS
  intro a ha
  exact CL_closed_descend hCLS G (self_mem_subnodes G) hGid a ha

/-- The renumbering map applied across a duplicate-free list assigns the
positions `e, e + 1, …` in order. -/
theorem map_oldToNew_eq_idSeq :
    ∀ (L : List MapNode), (L.map MapNode.id).Nodup → ∀ (e : Int),
      L.map (fun n => ((findIndexBy (fun m => m.id = n.id) L).map
        (fun (k : Nat) => (k : Int) + e)).getD 0) = idSeq e L.length := by
  intro L
  induction L with
  | nil => intro _ e; rfl
  | cons n0 rest ih =>
    intro hnd e
    rw [List.map_cons]
    have h0 : findIndexBy (fun m => m.id = n0.id) (n0 :: rest) =
        some 0 := by
      rw [findIndexBy, if_pos (by simp)]
    rw [h0]
    have hn0 : n0.id ∉ rest.map MapNode.id := by
      rw [List.map_cons, List.nodup_cons] at hnd
      exact hnd.1
    have htail : rest.map (fun n => ((findIndexBy
        (fun m => m.id = n.id) (n0 :: rest)).map
        (fun (k : Nat) => (k : Int) + e)).getD 0) =
        rest.map (fun n => ((findIndexBy (fun m => m.id = n.id)
          rest).map (fun (k : Nat) => (k : Int) + (e + 1))).getD 0) := by
      apply List.map_congr_left
      intro m hm
      have hne : ¬ (n0.id = m.id) := by
        intro hcontra
        exact hn0 (hcontra ▸ List.mem_map_of_mem _ hm)
      rw [findIndexBy, if_neg (by simpa using hne)]
      cases hfind : findIndexBy (fun x => x.id = m.id) rest with
      | none => rfl
      | some k =>
        simp
        omega
    rw [htail]
    have hrest : (rest.map MapNode.id).Nodup := by
      rw [List.map_cons, List.nodup_cons] at hnd
      exact hnd.2
    rw [ih hrest (e + 1), List.length_cons, idSeq]
    congr 1
    simp

/-! ## C7: canonical shape of the flatten output -/

/-- The id-sorted list of nodes collected by the `toFlatJSON` BFS, with
the fuel `toFlatJSON` uses. -/
def sortedCollect (g : MapNode) : List MapNode :=
  (flattenCollect ((subnodes g).length * (subnodes g).length +
    (subnodes g).length + 1) [g] []).insertionSort (fun a b => a.id ≤ b.id)

theorem toFlatJSON_eq (g : MapNode) :
    toFlatJSON g = (sortedCollect g).map (fun n =>
      { toJSON n with
        id := (oldToNew (sortedCollect g) n.id).getD 0,
        nextRooms := n.nextRooms.map (fun cid =>
          if 0 < cid then (oldToNew (sortedCollect g) cid).getD 0
          else 0) }) := rfl

theorem sortedCollect_props (g : MapNode) (hM : Mirror g)
    (hU : IdUniform g) :
    ((sortedCollect g).map MapNode.id).Nodup ∧
    (∀ m ∈ sortedCollect g, m ∈ subnodes g) ∧
    (∀ a ∈ subnodes g, a.id ∈ (sortedCollect g).map MapNode.id) := by
  obtain ⟨h1, h2, h3⟩ := flattenCollect_full g hM hU
  have hperm : (sortedCollect g).Perm (flattenCollect
      ((subnodes g).length * (subnodes g).length +
        (subnodes g).length + 1) [g] []) :=
    List.perm_insertionSort _ _
  refine ⟨?_, ?_, ?_⟩
  · exact ((hperm.map MapNode.id).nodup_iff).mpr h1
  · intro m hm
    exact h2 m (hperm.mem_iff.mp hm)
  · intro a ha
    exact (hperm.map MapNode.id).mem_iff.mpr (h3 a ha)

theorem sortedCollect_length (g : MapNode) (hM : Mirror g)
    (hU : IdUniform g) :
    (sortedCollect g).length =
      ((subnodes g).map MapNode.id).dedup.length := by
  obtain ⟨h1, h2, h3⟩ := sortedCollect_props g hM hU
  have hmem : ∀ x, x ∈ (sortedCollect g).map MapNode.id ↔
      x ∈ ((subnodes g).map MapNode.id).dedup := by
    intro x
    constructor
    · intro hx
      obtain ⟨m, hm, rfl⟩ := List.mem_map.mp hx
      exact List.mem_dedup.mpr (List.mem_map_of_mem _ (h2 m hm))
    · intro hx
      obtain ⟨a, ha, rfl⟩ := List.mem_map.mp (List.mem_dedup.mp hx)
      exact h3 a ha
  have hfin : ((sortedCollect g).map MapNode.id).toFinset =
      ((subnodes g).map MapNode.id).dedup.toFinset := by
    ext x
    simp only [List.mem_toFinset]
    exact hmem x
  have hc1 := List.toFinset_card_of_nodup h1
  have hc2 := List.toFinset_card_of_nodup
    (List.nodup_dedup ((subnodes g).map MapNode.id))
  have hlen : ((sortedCollect g).map MapNode.id).length =
      ((subnodes g).map MapNode.id).dedup.length := by
    rw [← hc1, ← hc2, hfin]
  simpa using hlen

/-- C7: for every graph whose children lists mirror the non-zero
`nextRooms` entries (and whose equal ids carry equal node data, the
object-identity reading of ids), `toFlatJSON` emits exactly one record
per distinct reachable node id (convergent nodes counted once), the
emitted record ids are exactly `1..N` in ascending order, and every
`nextRooms` entry of every emitted record is `0` or an id in `1..N`. -/
theorem toFlatJSON_canonical (g : MapNode) (hM : Mirror g)
    (hU : IdUniform g) :
    (toFlatJSON g).length = ((subnodes g).map MapNode.id).dedup.length ∧
    (toFlatJSON g).map MapNodeData.id = idSeq 1 (toFlatJSON g).length ∧
    ∀ d ∈ toFlatJSON g, ∀ x ∈ d.nextRooms,
      x = 0 ∨ (1 ≤ x ∧ x ≤ ((toFlatJSON g).length : Int)) := by
  obtain ⟨hnd, hsub, hcov⟩ := sortedCollect_props g hM hU
  have hlenm : (toFlatJSON g).length = (sortedCollect g).length := by
    rw [toFlatJSON_eq, List.length_map]
  refine ⟨?_, ?_, ?_⟩
  · rw [hlenm]
    exact sortedCollect_length g hM hU
  · rw [hlenm, toFlatJSON_eq, List.map_map]
    have hfun : (MapNodeData.id ∘ (fun n => { toJSON n with
        id := (oldToNew (sortedCollect g) n.id).getD 0,
        nextRooms := n.nextRooms.map (fun cid =>
          if 0 < cid then (oldToNew (sortedCollect g) cid).getD 0
          else 0) })) = fun n =>
        ((findIndexBy (fun m => m.id = n.id) (sortedCollect g)).map
          (fun (k : Nat) => (k : Int) + 1)).getD 0 := rfl
    rw [hfun]
    exact map_oldToNew_eq_idSeq (sortedCollect g) hnd 1
  · rw [hlenm, toFlatJSON_eq]
    intro d hd x hx
    obtain ⟨n, hn, rfl⟩ := List.mem_map.mp hd
    have hx2 : x ∈ n.nextRooms.map (fun cid =>
        if 0 < cid then (oldToNew (sortedCollect g) cid).getD 0
        else 0) := hx
    obtain ⟨cid, _, rfl⟩ := List.mem_map.mp hx2
    by_cases hpos : 0 < cid
    · rw [if_pos hpos, oldToNew]
      cases hfind : findIndexBy (fun m => m.id = cid)
          (sortedCollect g) with
      | none => exact Or.inl rfl
      | some k =>
        obtain ⟨hlt, -, -⟩ := findIndexBy_eq_some hfind
        simp
        omega
    · rw [if_neg hpos]
      exact Or.inl rfl

/-- A concrete convergent graph for exercising `toFlatJSON_canonical`:
two BATTLE rooms share the same GOAL child. -/
def c7goal : MapNode := MapNode.mk 4 2 RoomTypeGOAL 0 [0, 0, 0, 0, 0, 0] []

def c7g : MapNode :=
  MapNode.mk 1 0 RoomTypeBATTLE 5 [2, 3, 0, 0, 0, 0]
    [MapNode.mk 2 1 RoomTypeBATTLE 7 [4, 0, 0, 0, 0, 0] [c7goal],
     MapNode.mk 3 1 RoomTypeBATTLE 9 [4, 0, 0, 0, 0, 0] [c7goal]]

theorem toFlatJSON_canonical_witness :
    (Mirror c7g ∧ IdUniform c7g) ∧
    ((toFlatJSON c7g).length =
        ((subnodes c7g).map MapNode.id).dedup.length ∧
      (toFlatJSON c7g).map MapNodeData.id =
        idSeq 1 (toFlatJSON c7g).length ∧
      ∀ d ∈ toFlatJSON c7g, ∀ x ∈ d.nextRooms,
        x = 0 ∨ (1 ≤ x ∧ x ≤ ((toFlatJSON c7g).length : Int))) :=
  ⟨⟨by decide, by decide⟩,
    toFlatJSON_canonical c7g (by decide) (by decide)⟩

/-! ## Deserializer (src/lib/types.ts, `fromJSON` / `fromFlatJSON`) -/

/-- `MapNode.fromJSON(data, parent, depth)`: fresh node carrying the
record's id, room type and `nextRooms`; the monster index is read from
the nested `roomData` object when the room is a BATTLE room and defaults
to 0 otherwise; `children` starts empty. -/
def fromJSON (data : MapNodeData) (depth : Int) : MapNode :=
  MapNode.mk data.id depth data.roomType
    (if data.roomType = RoomTypeBATTLE then data.roomData.getD 0 else 0)
    data.nextRooms []

/-- Replace the children list of a node (`node.children.push(child)`
accumulated over the loop body of `buildNode`). -/
def withChildren (n : MapNode) (cs : List MapNode) : MapNode :=
  MapNode.mk n.id n.depth n.roomType n.monsterIndex1 n.nextRooms cs

/-- The child-building loop of `buildNode`: for each positive
`nextRooms` entry, look up the record with that id in the array
(`dataArray.find`), skip the entry if there is none, and otherwise build
the child recursively and push it.  `none` signals that a recursive
build ran out of fuel (the JS recursion simply diverges there). -/
def buildChildrenLoop (bN : MapNodeData → Option MapNode)
    (dataArray : List MapNodeData) : List Int → Option (List MapNode)
  | [] => some []
  | cid :: rest =>
    match dataArray.find? (fun rcd => rcd.id = cid) with
    | none => buildChildrenLoop bN dataArray rest
    | some cd =>
      match bN cd, buildChildrenLoop bN dataArray rest with
      | some c, some cs => some (c :: cs)
      | _, _ => none

/-- The recursive `buildNode` closure of `fromFlatJSON`, with an
explicit fuel bound on the recursion depth. -/
def buildNode (dataArray : List MapNodeData) :
    Nat → MapNodeData → Int → Option MapNode
  | 0, _, _ => none
  | fuel + 1, data, depth =>
    match buildChildrenLoop
        (fun cd => buildNode dataArray fuel cd (depth + 1)) dataArray
        (data.nextRooms.filter (fun i => 0 < i)) with
    | some cs => some (withChildren (fromJSON data depth) cs)
    | none => none

/-- `MapNode.fromFlatJSON(dataArray)` (src/lib/types.ts, lines
210-252): empty input yields `null`; the root is the first record whose
id is referenced by no positive `nextRooms` entry; the tree is built
recursively, instantiating a child record once per referencing parent.
The fuel `dataArray.length` covers every input on which the JS recursion
terminates, since a terminating build never repeats a record id along a
recursion path. -/
def fromFlatJSON (dataArray : List MapNodeData) : Option MapNode :=
  if dataArray.length = 0 then none
  else
    match dataArray.find? (fun n =>
        n.id ∉ dataArray.flatMap
          (fun d => d.nextRooms.filter (fun i => 0 < i))) with
    | none => none
    | some rootData => buildNode dataArray dataArray.length rootData 0

mutual

/-- Structural equality test for `MapNode` (the nested inductive does
not support `deriving DecidableEq`). -/
def beqNode : MapNode → MapNode → Bool
  | .mk i d rt mi nr cs, .mk i2 d2 rt2 mi2 nr2 cs2 =>
    decide (i = i2) && decide (d = d2) && decide (rt = rt2) &&
    decide (mi = mi2) && decide (nr = nr2) && beqNodeList cs cs2

def beqNodeList : List MapNode → List MapNode → Bool
  | [], [] => true
  | a :: arest, b :: brest => beqNode a b && beqNodeList arest brest
  | _, _ => false

end

mutual

theorem beqNode_iff : ∀ a b : MapNode, beqNode a b = true ↔ a = b
  | .mk i d rt mi nr cs, .mk i2 d2 rt2 mi2 nr2 cs2 => by
    rw [beqNode]
    simp only [Bool.and_eq_true, decide_eq_true_eq,
      beqNodeList_iff cs cs2, MapNode.mk.injEq]
    tauto

theorem beqNodeList_iff : ∀ a b : List MapNode,
    beqNodeList a b = true ↔ a = b
  | [], [] => by simp [beqNodeList]
  | [], _ :: _ => by simp [beqNodeList]
  | _ :: _, [] => by simp [beqNodeList]
  | a :: arest, b :: brest => by
    rw [beqNodeList]
    simp only [Bool.and_eq_true, beqNode_iff a b,
      beqNodeList_iff arest brest, List.cons.injEq]

end

instance : DecidableEq MapNode := fun a b =>
  decidable_of_iff _ (beqNode_iff a b)

theorem buildNode_some {arr : List MapNodeData} {f : Nat}
    {data : MapNodeData} {depth : Int} {n : MapNode}
    (h : buildNode arr f data depth = some n) :
    ∃ f0 cs, f = f0 + 1 ∧
      buildChildrenLoop (fun cd => buildNode arr f0 cd (depth + 1)) arr
        (data.nextRooms.filter (fun i => 0 < i)) = some cs ∧
      n = withChildren (fromJSON data depth) cs := by
  cases f with
  | zero => exact absurd h (by simp [buildNode])
  | succ f0 =>
    rw [buildNode] at h
    cases hbc : buildChildrenLoop
        (fun cd => buildNode arr f0 cd (depth + 1)) arr
        (data.nextRooms.filter (fun i => 0 < i)) with
    | none =>
      rw [hbc] at h
      exact Option.noConfusion h
    | some cs =>
      rw [hbc] at h
      exact ⟨f0, cs, rfl, hbc, (Option.some.inj h).symm⟩

theorem buildChildrenLoop_mem {bN : MapNodeData → Option MapNode}
    {arr : List MapNodeData} :
    ∀ {ids : List Int} {cs : List MapNode},
      buildChildrenLoop bN arr ids = some cs →
      ∀ c ∈ cs, ∃ cid ∈ ids, ∃ cd,
        arr.find? (fun rcd => rcd.id = cid) = some cd ∧
        bN cd = some c := by
  intro ids
  induction ids with
  | nil =>
    intro cs h c hc
    rw [buildChildrenLoop] at h
    obtain rfl := (Option.some.inj h).symm
    cases hc
  | cons cid0 rest ih =>
    intro cs h c hc
    rw [buildChildrenLoop] at h
    cases hfind : arr.find? (fun rcd => rcd.id = cid0) with
    | none =>
      rw [hfind] at h
      obtain ⟨cid2, hcid2, cd, hcd, hbn⟩ := ih h c hc
      exact ⟨cid2, List.mem_cons_of_mem _ hcid2, cd, hcd, hbn⟩
    | some cd =>
      rw [hfind] at h
      try dsimp only at h
      cases hbn : bN cd with
      | none => rw [hbn] at h; exact Option.noConfusion h
      | some c0 =>
        rw [hbn] at h
        try dsimp only at h
        cases hrest : buildChildrenLoop bN arr rest with
        | none => rw [hrest] at h; exact Option.noConfusion h
        | some cs0 =>
          rw [hrest] at h
          try dsimp only at h
          obtain rfl := (Option.some.inj h).symm
          rcases List.mem_cons.mp hc with rfl | hc2
          · exact ⟨cid0, List.mem_cons_self _ _, cd, hfind, hbn⟩
          · obtain ⟨cid2, hcid2, cd2, hcd2, hbn2⟩ := ih hrest c hc2
            exact ⟨cid2, List.mem_cons_of_mem _ hcid2, cd2, hcd2, hbn2⟩

theorem buildChildrenLoop_complete {bN : MapNodeData → Option MapNode}
    {arr : List MapNodeData} :
    ∀ {ids : List Int} {cs : List MapNode},
      buildChildrenLoop bN arr ids = some cs →
      ∀ cid ∈ ids, ∀ cd,
        arr.find? (fun rcd => rcd.id = cid) = some cd →
        ∃ c ∈ cs, bN cd = some c := by
  intro ids
  induction ids with
  | nil => intro cs _ cid hcid; cases hcid
  | cons cid0 rest ih =>
    intro cs h cid hcid cd hcd
    rw [buildChildrenLoop] at h
    rcases List.mem_cons.mp hcid with rfl | hcid2
    · rw [hcd] at h
      try dsimp only at h
      cases hbn : bN cd with
      | none => rw [hbn] at h; exact Option.noConfusion h
      | some c0 =>
        rw [hbn] at h
        try dsimp only at h
        cases hrest : buildChildrenLoop bN arr rest with
        | none => rw [hrest] at h; exact Option.noConfusion h
        | some cs0 =>
          rw [hrest] at h
          try dsimp only at h
          obtain rfl := (Option.some.inj h).symm
          exact ⟨c0, List.mem_cons_self _ _, rfl⟩
    · cases hfind : arr.find? (fun rcd => rcd.id = cid0) with
      | none =>
        rw [hfind] at h
        exact ih h cid hcid2 cd hcd
      | some cd0 =>
        rw [hfind] at h
        try dsimp only at h
        cases hbn : bN cd0 with
        | none => rw [hbn] at h; exact Option.noConfusion h
        | some c0 =>
          rw [hbn] at h
          try dsimp only at h
          cases hrest : buildChildrenLoop bN arr rest with
          | none => rw [hrest] at h; exact Option.noConfusion h
          | some cs0 =>
            rw [hrest] at h
            try dsimp only at h
            obtain rfl := (Option.some.inj h).symm
            obtain ⟨c, hcmem, hbnc⟩ := ih hrest cid hcid2 cd hcd
            exact ⟨c, List.mem_cons_of_mem _ hcmem, hbnc⟩

/-- Every subnode of a built node is itself the output of a `buildNode`
call on some record of the array (or on the starting record). -/
theorem buildNode_built_subnodes (arr : List MapNodeData) :
    ∀ (f : Nat) (data : MapNodeData) (depth : Int) (n : MapNode),
      buildNode arr f data depth = some n →
      ∀ m ∈ subnodes n, ∃ d2 f2 dep2, (d2 = data ∨ d2 ∈ arr) ∧
        buildNode arr f2 d2 dep2 = some m := by
  intro f
  induction f with
  | zero => intro data depth n h; exact absurd h (by simp [buildNode])
  | succ f0 ih =>
    intro data depth n h m hm
    obtain ⟨f1, cs, hf, hbc, hn⟩ := buildNode_some h
    obtain rfl : f1 = f0 := by omega
    subst hn
    rcases subnodes_cases hm with rfl | ⟨c, hc, hmc⟩
    · exact ⟨data, f1 + 1, depth, Or.inl rfl, h⟩
    · have hc2 : c ∈ cs := hc
      obtain ⟨cid, _, cd, hcd, hbn⟩ := buildChildrenLoop_mem hbc c hc2
      have hcdarr : cd ∈ arr := List.mem_of_find?_eq_some hcd
      obtain ⟨d2, f2, dep2, hd2, hb2⟩ := ih cd (depth + 1) c hbn m hmc
      rcases hd2 with rfl | hd2
      · exact ⟨d2, f2, dep2, Or.inr hcdarr, hb2⟩
      · exact ⟨d2, f2, dep2, Or.inr hd2, hb2⟩

/-- A built node keeps the record's `nextRooms`, and every positive
entry whose record exists in the array shows up as the id of one of the
built children. -/
theorem buildNode_children_complete {arr : List MapNodeData} {f : Nat}
    {data : MapNodeData} {depth : Int} {n : MapNode}
    (h : buildNode arr f data depth = some n) :
    n.nextRooms = data.nextRooms ∧
    ∀ cid ∈ n.nextRooms, 0 < cid →
      ∀ cd, arr.find? (fun rcd => rcd.id = cid) = some cd →
        cid ∈ n.children.map MapNode.id := by
  obtain ⟨f0, cs, hf, hbc, hn⟩ := buildNode_some h
  subst hn
  have hnr : (withChildren (fromJSON data depth) cs).nextRooms =
      data.nextRooms := rfl
  refine ⟨hnr, ?_⟩
  intro cid hcid hpos cd hcd
  have hmemf : cid ∈ data.nextRooms.filter (fun i => 0 < i) := by
    rw [List.mem_filter]
    exact ⟨hnr ▸ hcid, by simpa using hpos⟩
  obtain ⟨c, hcmem, hbn⟩ := buildChildrenLoop_complete hbc cid hmemf cd hcd
  obtain ⟨f1, cs1, _, _, hceq⟩ := buildNode_some hbn
  have hcdid : cd.id = cid := by
    have := List.find?_some hcd
    simpa using this
  have hcid2 : c.id = cid := by rw [hceq, ← hcdid]; rfl
  rw [List.mem_map]
  exact ⟨c, hcmem, hcid2⟩

/-- Counting duplication: the unfolding of a tree contains at least as
many nodes carrying the id `cid` as it contains nodes having a child
with id `cid` (plus one if the tree's own id is `cid`). -/
theorem countP_dup_le (cid : Int) (n : MapNode) :
    (subnodes n).countP
        (fun p => decide (cid ∈ p.children.map MapNode.id))
      + (if n.id = cid then 1 else 0)
      ≤ (subnodes n).countP (fun m => decide (m.id = cid)) := by
  cases n with
  | mk i d rt mi nr cs =>
    have hrec : ∀ c ∈ cs,
        (subnodes c).countP
            (fun p => decide (cid ∈ p.children.map MapNode.id))
          + (if c.id = cid then 1 else 0)
          ≤ (subnodes c).countP (fun m => decide (m.id = cid)) :=
      fun c _ => countP_dup_le cid c
    have hlist : ∀ cs2 : List MapNode,
        (∀ c ∈ cs2,
          (subnodes c).countP
              (fun p => decide (cid ∈ p.children.map MapNode.id))
            + (if c.id = cid then 1 else 0)
            ≤ (subnodes c).countP (fun m => decide (m.id = cid))) →
        (subnodesList cs2).countP
            (fun p => decide (cid ∈ p.children.map MapNode.id))
          + cs2.countP (fun c => decide (c.id = cid))
          ≤ (subnodesList cs2).countP (fun m => decide (m.id = cid)) := by
      intro cs2
      induction cs2 with
      | nil => intro _; simp [subnodesList]
      | cons c rest ih =>
        intro hall
        rw [subnodesList, List.countP_append, List.countP_append,
          List.countP_cons]
        simp only [decide_eq_true_eq]
        have h1 := hall c (List.mem_cons_self _ _)
        have h2 := ih (fun x hx => hall x (List.mem_cons_of_mem _ hx))
        by_cases hc : c.id = cid
        · rw [if_pos hc] at h1 ⊢
          omega
        · rw [if_neg hc] at h1 ⊢
          omega
    have hmain := hlist cs hrec
    rw [subnodes, List.countP_cons, List.countP_cons]
    simp only [decide_eq_true_eq, MapNode.id_mk, MapNode.children_mk]
    by_cases hid : i = cid
    · by_cases hmem : cid ∈ cs.map MapNode.id
      · have hcount : 0 < cs.countP (fun c => decide (c.id = cid)) := by
          rw [List.countP_pos_iff]
          obtain ⟨c, hcmem, hcid⟩ := List.mem_map.mp hmem
          exact ⟨c, hcmem, by simp [hcid]⟩
        rw [if_pos hid, if_pos hmem]
        omega
      · rw [if_pos hid, if_neg hmem]
        omega
    · by_cases hmem : cid ∈ cs.map MapNode.id
      · have hcount : 0 < cs.countP (fun c => decide (c.id = cid)) := by
          rw [List.countP_pos_iff]
          obtain ⟨c, hcmem, hcid⟩ := List.mem_map.mp hmem
          exact ⟨c, hcmem, by simp [hcid]⟩
        rw [if_neg hid, if_pos hmem]
        omega
      · rw [if_neg hid, if_neg hmem]
        omega
termination_by sizeOf n
decreasing_by
  rename_i hcmem0
  exact sizeOf_lt_of_mem_children (by simpa using hcmem0)

/-- A list holding two distinct elements that both satisfy `p` has
`countP p` at least two. -/
theorem two_le_countP {α : Type} {l : List α} {p : α → Bool}
    {a b : α} (ha : a ∈ l) (hb : b ∈ l) (hab : a ≠ b)
    (hpa : p a = true) (hpb : p b = true) : 2 ≤ l.countP p := by
  induction l with
  | nil => cases ha
  | cons x rest ih =>
    rw [List.countP_cons]
    rcases List.mem_cons.mp ha with rfl | ha2
    · rcases List.mem_cons.mp hb with rfl | hb2
      · exact absurd rfl hab
      · have h1 : 0 < rest.countP p :=
          List.countP_pos_iff.mpr ⟨b, hb2, hpb⟩
        rw [if_pos hpa]
        omega
    · rcases List.mem_cons.mp hb with rfl | hb2
      · have h1 : 0 < rest.countP p :=
          List.countP_pos_iff.mpr ⟨a, ha2, hpa⟩
        rw [if_pos hpb]
        omega
      · have := ih ha2 hb2
        omega

theorem fromFlatJSON_some {arr : List MapNodeData} {root : MapNode}
    (h : fromFlatJSON arr = some root) :
    ∃ rootData, arr.find? (fun n =>
        n.id ∉ arr.flatMap (fun d => d.nextRooms.filter (fun i => 0 < i)))
      = some rootData ∧
      buildNode arr arr.length rootData 0 = some root := by
  rw [fromFlatJSON] at h
  by_cases hlen : arr.length = 0
  · rw [if_pos hlen] at h
    exact Option.noConfusion h
  · rw [if_neg hlen] at h
    cases hfind : arr.find? (fun n =>
        n.id ∉ arr.flatMap
          (fun d => d.nextRooms.filter (fun i => 0 < i))) with
    | none =>
      rw [hfind] at h
      exact Option.noConfusion h
    | some rd =>
      rw [hfind] at h
      exact ⟨rd, rfl, h⟩

/-- C10 (amended): `fromFlatJSON` instantiates a referenced record once
per referencing parent, so whenever the rebuilt structure contains two
distinct parents both holding a positive `nextRooms` entry `cid` whose
record exists in the array, the unfolding along `children` contains at
least two nodes carrying the id `cid` — a duplicated instance, not a
single shared node.  (The literal claim fails when the referenced record
is missing or a referencing record is unreachable from the chosen root;
see the counterexample.) -/
theorem fromFlatJSON_convergent_duplication (arr : List MapNodeData)
    (root : MapNode) (cid : Int) (cd : MapNodeData)
    (hres : fromFlatJSON arr = some root)
    (p1 p2 : MapNode)
    (hp1 : p1 ∈ subnodes root) (hp2 : p2 ∈ subnodes root)
    (hne : p1 ≠ p2)
    (hm1 : cid ∈ p1.nextRooms) (hm2 : cid ∈ p2.nextRooms)
    (hpos : 0 < cid)
    (hrec : arr.find? (fun rcd => rcd.id = cid) = some cd) :
    2 ≤ (subnodes root).countP (fun m => decide (m.id = cid)) := by
  obtain ⟨rd, hfind, hbuild⟩ := fromFlatJSON_some hres
  have hchild : ∀ p ∈ subnodes root, cid ∈ p.nextRooms →
      cid ∈ p.children.map MapNode.id := by
    intro p hp hmem
    obtain ⟨d2, f2, dep2, _, hb⟩ :=
      buildNode_built_subnodes arr arr.length rd 0 root hbuild p hp
    obtain ⟨_, hcomp⟩ := buildNode_children_complete hb
    exact hcomp cid hmem hpos cd hrec
  have hc1 := hchild p1 hp1 hm1
  have hc2 := hchild p2 hp2 hm2
  have h2le : 2 ≤ (subnodes root).countP
      (fun p => decide (cid ∈ p.children.map MapNode.id)) :=
    two_le_countP hp1 hp2 hne (decide_eq_true hc1) (decide_eq_true hc2)
  have hdup := countP_dup_le cid root
  omega

def c10bad : List MapNodeData :=
  [⟨1, RoomTypeBATTLE, some 0, JsVal.undef, [3, 0, 0, 0, 0, 0]⟩,
   ⟨2, RoomTypeBATTLE, some 0, JsVal.undef, [3, 0, 0, 0, 0, 0]⟩]

/-- C10 counterexample to the literal claim: two distinct records both
list child id 3 in their `nextRooms`, yet the structure returned by
`fromFlatJSON` contains no node carrying id 3 at all — the record with
id 3 does not exist, so `buildNode` silently drops the entry for both
parents instead of instantiating it once per parent. -/
theorem fromFlatJSON_duplication_counterexample :
    (∀ d ∈ c10bad, (3 : Int) ∈ d.nextRooms) ∧
    c10bad.length = 2 ∧ (c10bad.map MapNodeData.id).Nodup ∧
    fromFlatJSON c10bad =
      some (MapNode.mk 1 0 RoomTypeBATTLE 0 [3, 0, 0, 0, 0, 0] []) ∧
    (subnodes
        (MapNode.mk 1 0 RoomTypeBATTLE 0 [3, 0, 0, 0, 0, 0] [])).countP
      (fun m => decide (m.id = 3)) = 0 :=
  ⟨by decide, rfl, by decide, rfl, rfl⟩

def c10arr : List MapNodeData :=
  [⟨1, RoomTypeBATTLE, some 5, JsVal.undef, [2, 3, 0, 0, 0, 0]⟩,
   ⟨2, RoomTypeBATTLE, some 6, JsVal.undef, [4, 0, 0, 0, 0, 0]⟩,
   ⟨3, RoomTypeBATTLE, some 7, JsVal.undef, [4, 0, 0, 0, 0, 0]⟩,
   ⟨4, RoomTypeGOAL, none, JsVal.null, [0, 0, 0, 0, 0, 0]⟩]

def c10goal : MapNode := MapNode.mk 4 2 RoomTypeGOAL 0 [0, 0, 0, 0, 0, 0] []

def c10p1 : MapNode :=
  MapNode.mk 2 1 RoomTypeBATTLE 6 [4, 0, 0, 0, 0, 0] [c10goal]

def c10p2 : MapNode :=
  MapNode.mk 3 1 RoomTypeBATTLE 7 [4, 0, 0, 0, 0, 0] [c10goal]

def c10root : MapNode :=
  MapNode.mk 1 0 RoomTypeBATTLE 5 [2, 3, 0, 0, 0, 0] [c10p1, c10p2]

def c10cd : MapNodeData := ⟨4, RoomTypeGOAL, none, JsVal.null, [0, 0, 0, 0, 0, 0]⟩

theorem fromFlatJSON_convergent_duplication_witness :
    fromFlatJSON c10arr = some c10root ∧
    2 ≤ (subnodes c10root).countP (fun m => decide (m.id = 4)) :=
  ⟨rfl, fromFlatJSON_convergent_duplication c10arr c10root 4 c10cd rfl
    c10p1 c10p2 (by decide) (by decide) (by decide) (by decide)
    (by decide) (by decide) rfl⟩

/-! ## Layout engine (src/lib/graph-operations.ts, `traverseGraph` /
`calculateNodePositions`) -/

/-- The inner search loop of `traverseGraph`: breadth-first over
`children` from the root, returning the first node (in BFS order)
carrying the target id.  The id test precedes the visited test, as in
the source. -/
def searchStep : Nat → List MapNode → List Int → Int → Option MapNode
  | 0, _, _, _ => none
  | _ + 1, [], _, _ => none
  | fuel + 1, sn :: q, vis, target =>
    if sn.id = target then some sn
    else if sn.id ∈ vis then searchStep fuel q vis target
    else searchStep fuel (q ++ sn.children) (sn.id :: vis) target

/-- Shared fuel bound for the breadth-first loops over a graph. -/
def bfsFuel (g : MapNode) : Nat :=
  (subnodes g).length * (subnodes g).length + (subnodes g).length + 1

/-- The `child` lookup of `traverseGraph` for an unvisited `childId`:
`allNodes.get(childId)` always misses (its keys are exactly the visited
ids), so the tree search runs. -/
def searchById (root : MapNode) (target : Int) : Option MapNode :=
  searchStep (bfsFuel root) [root] [] target

/-- The main loop of `traverseGraph`: pop, skip visited ids, record the
node, and for each positive unvisited `nextRooms` entry push the node
found by the tree search (nothing when the search fails). -/
def traverseLoop (root : MapNode) :
    Nat → List MapNode → List Int → List MapNode
  | 0, _, _ => []
  | _ + 1, [], _ => []
  | fuel + 1, n :: q, vis =>
    if n.id ∈ vis then traverseLoop root fuel q vis
    else
      n :: traverseLoop root fuel
        (q ++ n.nextRooms.filterMap (fun cid =>
          if 0 < cid ∧ cid ∉ n.id :: vis then searchById root cid
          else none))
        (n.id :: vis)

/-- `traverseGraph(root)` (src/lib/graph-operations.ts, lines 6-45),
with an explicit fuel for the unbounded JS loop; the collected list is
the `allNodes` map in insertion order (keys are the node ids). -/
def traverseGraph (fuel : Nat) (root : MapNode) : List MapNode :=
  traverseLoop root fuel [root] []

def nodeWidth : ℚ := 140

def levelHeight : ℚ := 150

def minSiblingSpacing : ℚ := 40

/-- The parent set `nodeParents.get(n.id)` of `calculateNodePositions`:
collected nodes holding the positive id `cid` among their `nextRooms`. -/
def layoutParents (all : List MapNode) (cid : Int) : List MapNode :=
  all.filter (fun m => decide (cid ∈ m.nextRooms ∧ 0 < cid))

/-- The ideal x of one node: the average of its parents' current x, or
600 when it has no recorded parent. -/
def idealX (x : Int → ℚ) (all : List MapNode) (n : MapNode) : ℚ :=
  let ps := layoutParents all n.id
  if ps.length = 0 then 600
  else (ps.map (fun p => x p.id)).sum / (ps.length : ℚ)

/-- The left-to-right position pass over the tail of the sorted group:
each node takes `max(previous + nodeWidth + minSiblingSpacing, ideal)`. -/
def positionsFrom (prev : ℚ) : List ℚ → List ℚ
  | [] => []
  | i :: rest =>
    max (prev + nodeWidth + minSiblingSpacing) i ::
      positionsFrom (max (prev + nodeWidth + minSiblingSpacing) i) rest

/-- The `positions` array of one depth pass: the first node takes its
ideal position, the rest follow with the minimum spacing. -/
def positionsOf : List ℚ → List ℚ
  | [] => []
  | i :: rest => i :: positionsFrom i rest

/-- Write `positions[i] + shift` into the x map, one sorted node at a
time. -/
def writePositions (x : Int → ℚ) :
    List MapNode → List ℚ → ℚ → Int → ℚ
  | n :: ns, p :: ps, shift =>
    writePositions (Function.update x n.id (p + shift)) ns ps shift
  | _, _, _ => x

/-- The body of one x-positioning depth pass, after the group `nodes`
has been filtered and sorted: a single node takes its ideal position;
two or more get the spaced positions plus the uniform centering offset
`max(-leftMost + 100, min(idealCenter - groupCenter, 1000))`. -/
def depthPassCore (all : List MapNode) (x : Int → ℚ)
    (nodes : List MapNode) : List MapNode → Int → ℚ
  | [] => x
  | [n] => Function.update x n.id (idealX x all n)
  | n0 :: n1 :: rest =>
    let ideals := (n0 :: n1 :: rest).map (fun n => idealX x all n)
    let positions := positionsOf ideals
    let leftMost := positions.foldl min (positions.headD 0)
    let rightMost := positions.foldl max (positions.headD 0)
    let groupCenter := (leftMost + rightMost) / 2
    let idealCenter := (nodes.map (fun n => idealX x all n)).sum /
      (nodes.length : ℚ)
    let offset := idealCenter - groupCenter
    writePositions x (n0 :: n1 :: rest) positions
      (max (-leftMost + 100) (min offset 1000))

/-- One x-positioning depth pass of `calculateNodePositions`. -/
def depthPass (all : List MapNode) (d : Int) (x : Int → ℚ) :
    Int → ℚ :=
  let nodes := all.filter (fun n => n.depth = d)
  depthPassCore all x nodes
    (nodes.insertionSort (fun a b => idealX x all a ≤ idealX x all b))

/-- One y-positioning depth pass: every node of the group gets
`y = 50 + depth * levelHeight`. -/
def depthPassY (all : List MapNode) (d : Int) (y : Int → ℚ) :
    Int → ℚ :=
  (all.filter (fun n => n.depth = d)).foldl
    (fun acc n => Function.update acc n.id (50 + (d : ℚ) * levelHeight)) y

/-- `calculateNodePositions(rootNode)` (src/lib/graph-operations.ts,
lines 133-243): collect the nodes, place the root at (600, 50), then
position depth levels 1..maxDepth in order.  The returned pair holds
the final x and y coordinates keyed by node id (every node starts at
(0, 0), the constructor default). -/
def calculateNodePositions (fuel : Nat) (root : MapNode) :
    (Int → ℚ) × (Int → ℚ) :=
  let all := traverseGraph fuel root
  let maxD := (all.map MapNode.depth).foldl max 0
  let x0 := Function.update (fun _ => (0 : ℚ)) root.id 600
  let y0 := Function.update (fun _ => (0 : ℚ)) root.id 50
  let depths := (List.range maxD.toNat).map (fun (k : Nat) => (k : Int) + 1)
  (depths.foldl (fun x d => depthPass all d x) x0,
    depths.foldl (fun y d => depthPassY all d y) y0)

theorem traverseLoop_nodup (root : MapNode) :
    ∀ (fuel : Nat) (q : List MapNode) (vis : List Int),
      ((traverseLoop root fuel q vis).map MapNode.id).Nodup ∧
      (∀ m ∈ traverseLoop root fuel q vis, m.id ∉ vis) := by
  intro fuel
  induction fuel with
  | zero => intro q vis; rw [traverseLoop]; exact ⟨by simp, by simp⟩
  | succ fuel ih =>
    intro q vis
    cases q with
    | nil => rw [traverseLoop]; exact ⟨by simp, by simp⟩
    | cons n rest =>
      by_cases hvis : n.id ∈ vis
      · rw [traverseLoop, if_pos hvis]
        exact ih rest vis
      · rw [traverseLoop, if_neg hvis]
        obtain ⟨h1, h2⟩ := ih (rest ++ n.nextRooms.filterMap (fun cid =>
          if 0 < cid ∧ cid ∉ n.id :: vis then searchById root cid
          else none)) (n.id :: vis)
        refine ⟨?_, ?_⟩
        · rw [List.map_cons, List.nodup_cons]
          refine ⟨?_, h1⟩
          intro hmem
          obtain ⟨m, hm, hid⟩ := List.mem_map.mp hmem
          exact h2 m hm (by rw [hid]; exact List.mem_cons_self _ _)
        · intro m hm
          rcases List.mem_cons.mp hm with rfl | hm2
          · exact hvis
          · exact fun hv => h2 m hm2 (List.mem_cons_of_mem _ hv)

theorem positionsFrom_length (prev : ℚ) :
    ∀ l : List ℚ, (positionsFrom prev l).length = l.length := by
  intro l
  induction l generalizing prev with
  | nil => rfl
  | cons i rest ih => rw [positionsFrom]; simp [ih]

theorem positionsOf_length (l : List ℚ) :
    (positionsOf l).length = l.length := by
  cases l with
  | nil => rfl
  | cons i rest => rw [positionsOf]; simp [positionsFrom_length]

theorem positionsFrom_ge (prev : ℚ) :
    ∀ l : List ℚ, ∀ p ∈ positionsFrom prev l, prev + 180 ≤ p := by
  intro l
  induction l generalizing prev with
  | nil => intro p hp; cases hp
  | cons i rest ih =>
    intro p hp
    rw [positionsFrom] at hp
    rcases List.mem_cons.mp hp with rfl | hp2
    · have : prev + 180 ≤ prev + nodeWidth + minSiblingSpacing := by
        rw [nodeWidth, minSiblingSpacing]; linarith
      exact this.trans (le_max_left _ _)
    · have h1 := ih (max (prev + nodeWidth + minSiblingSpacing) i) p hp2
      have h2 : prev + 180 ≤ max (prev + nodeWidth + minSiblingSpacing) i
          + 180 := by
        have : prev ≤ prev + nodeWidth + minSiblingSpacing := by
          rw [nodeWidth, minSiblingSpacing]; linarith
        have := this.trans (le_max_left (prev + nodeWidth +
          minSiblingSpacing) i)
        linarith
      linarith

theorem positionsFrom_gap (prev : ℚ) :
    ∀ (l : List ℚ) (i j : Nat), i < j →
      ∀ pi pj, (positionsFrom prev l).get? i = some pi →
        (positionsFrom prev l).get? j = some pj →
        pi + 180 ≤ pj := by
  intro l
  induction l generalizing prev with
  | nil =>
    intro i j hij pi pj hpi hpj
    rw [positionsFrom] at hpi
    simp at hpi
  | cons i0 rest ih =>
    intro i j hij pi pj hpi hpj
    rw [positionsFrom] at hpi hpj
    cases i with
    | zero =>
      cases j with
      | zero => omega
      | succ j0 =>
        rw [List.get?_cons_zero] at hpi
        rw [List.get?_cons_succ] at hpj
        obtain rfl := Option.some.inj hpi
        exact positionsFrom_ge _ rest pj (List.get?_mem hpj)
    | succ i1 =>
      cases j with
      | zero => omega
      | succ j0 =>
        rw [List.get?_cons_succ] at hpi hpj
        exact ih _ i1 j0 (by omega) pi pj hpi hpj

theorem positionsOf_gap (l : List ℚ) (i j : Nat) (hij : i < j)
    (pi pj : ℚ) (hpi : (positionsOf l).get? i = some pi)
    (hpj : (positionsOf l).get? j = some pj) :
    pi + 180 ≤ pj := by
  cases l with
  | nil =>
    rw [positionsOf] at hpi
    simp at hpi
  | cons i0 rest =>
    rw [positionsOf] at hpi hpj
    cases i with
    | zero =>
      cases j with
      | zero => omega
      | succ j0 =>
        rw [List.get?_cons_zero] at hpi
        rw [List.get?_cons_succ] at hpj
        obtain rfl := Option.some.inj hpi
        exact positionsFrom_ge _ rest pj (List.get?_mem hpj)
    | succ i1 =>
      cases j with
      | zero => omega
      | succ j0 =>
        rw [List.get?_cons_succ] at hpi hpj
        exact positionsFrom_gap i0 rest i1 j0 (by omega) pi pj hpi hpj

theorem writePositions_unchanged (i : Int) :
    ∀ (ns : List MapNode) (ps : List ℚ) (x : Int → ℚ) (shift : ℚ),
      i ∉ ns.map MapNode.id →
      writePositions x ns ps shift i = x i := by
  intro ns
  induction ns with
  | nil => intro ps x shift _; rfl
  | cons n rest ih =>
    intro ps x shift hmem
    cases ps with
    | nil => rfl
    | cons p prest =>
      have hne : i ≠ n.id := by
        intro h
        exact hmem (by rw [List.map_cons, h]; exact List.mem_cons_self _ _)
      have hrest : i ∉ rest.map MapNode.id := by
        intro h
        exact hmem (by rw [List.map_cons]; exact List.mem_cons_of_mem _ h)
      show writePositions (Function.update x n.id (p + shift))
        rest prest shift i = x i
      rw [ih prest _ shift hrest]
      exact Function.update_noteq hne _ x

theorem writePositions_get (shift : ℚ) :
    ∀ (ns : List MapNode) (ps : List ℚ) (x : Int → ℚ),
      (ns.map MapNode.id).Nodup →
      ∀ (k : Nat) (n : MapNode) (p : ℚ),
        ns.get? k = some n → ps.get? k = some p →
        writePositions x ns ps shift n.id = p + shift := by
  intro ns
  induction ns with
  | nil => intro ps x _ k n p hn _; simp at hn
  | cons n0 rest ih =>
    intro ps x hnd k n p hn hp
    cases ps with
    | nil => simp at hp
    | cons p0 prest =>
      rw [List.map_cons, List.nodup_cons] at hnd
      cases k with
      | zero =>
        rw [List.get?_cons_zero] at hn hp
        obtain rfl := Option.some.inj hn
        obtain rfl := Option.some.inj hp
        show writePositions (Function.update x n0.id (p0 + shift))
          rest prest shift n0.id = p0 + shift
        rw [writePositions_unchanged n0.id rest prest _ shift hnd.1]
        exact Function.update_same _ _ _
      | succ k0 =>
        rw [List.get?_cons_succ] at hn hp
        show writePositions (Function.update x n0.id (p0 + shift))
          rest prest shift n.id = p + shift
        exact ih prest _ hnd.2 k0 n p hn hp

theorem depthPassCore_preserve (all : List MapNode) (x : Int → ℚ)
    (nodes : List MapNode) (i : Int) :
    ∀ sorted : List MapNode, i ∉ sorted.map MapNode.id →
      depthPassCore all x nodes sorted i = x i := by
  intro sorted hmem
  cases sorted with
  | nil => rfl
  | cons n0 rest =>
    cases rest with
    | nil =>
      have hne : i ≠ n0.id := by
        intro h
        exact hmem (by rw [List.map_cons, h]; exact List.mem_cons_self _ _)
      show Function.update x n0.id (idealX x all n0) i = x i
      exact Function.update_noteq hne _ x
    | cons n1 rest2 =>
      exact writePositions_unchanged i _ _ _ _ hmem

theorem writePositions_gap (x : Int → ℚ) (ns : List MapNode)
    (ideals : List ℚ) (shift : ℚ) (hnd : (ns.map MapNode.id).Nodup)
    (a b : MapNode) (ia ib : Nat) (hne : ia ≠ ib)
    (hia : ns.get? ia = some a) (hib : ns.get? ib = some b)
    (hlen : ideals.length = ns.length) :
    140 ≤ |writePositions x ns (positionsOf ideals) shift a.id -
           writePositions x ns (positionsOf ideals) shift b.id| := by
  have hlta : ia < ns.length := (List.get?_eq_some.mp hia).1
  have hltb : ib < ns.length := (List.get?_eq_some.mp hib).1
  have hlen2 : (positionsOf ideals).length = ns.length := by
    rw [positionsOf_length, hlen]
  obtain ⟨pa, hpa⟩ : ∃ pa, (positionsOf ideals).get? ia = some pa := by
    rw [List.get?_eq_get (by omega)]
    exact ⟨_, rfl⟩
  obtain ⟨pb, hpb⟩ : ∃ pb, (positionsOf ideals).get? ib = some pb := by
    rw [List.get?_eq_get (by omega)]
    exact ⟨_, rfl⟩
  have hva := writePositions_get shift ns (positionsOf ideals) x hnd
    ia a pa hia hpa
  have hvb := writePositions_get shift ns (positionsOf ideals) x hnd
    ib b pb hib hpb
  rw [hva, hvb]
  have hdiff : pa + shift - (pb + shift) = pa - pb := by ring
  rw [hdiff]
  rcases Nat.lt_or_ge ia ib with hij | hij
  · have := positionsOf_gap _ ia ib hij pa pb hpa hpb
    rw [abs_sub_comm]
    refine le_trans ?_ (le_abs_self _)
    linarith
  · have hij2 : ib < ia := by omega
    have := positionsOf_gap _ ib ia hij2 pb pa hpb hpa
    refine le_trans ?_ (le_abs_self _)
    linarith

theorem depthPassCore_gap (all : List MapNode) (x : Int → ℚ)
    (nodes : List MapNode) (sorted : List MapNode)
    (hnd : (sorted.map MapNode.id).Nodup)
    (a b : MapNode) (ha : a ∈ sorted) (hb : b ∈ sorted) (hab : a ≠ b) :
    140 ≤ |depthPassCore all x nodes sorted a.id -
           depthPassCore all x nodes sorted b.id| := by
  cases sorted with
  | nil => cases ha
  | cons n0 rest =>
    cases rest with
    | nil =>
      rw [List.mem_singleton] at ha hb
      exact absurd (ha.trans hb.symm) hab
    | cons n1 rest2 =>
      obtain ⟨ia, hia⟩ := List.get?_of_mem ha
      obtain ⟨ib, hib⟩ := List.get?_of_mem hb
      have hne : ia ≠ ib := by
        intro h
        rw [h, hib] at hia
        exact hab (Option.some.inj hia).symm
      exact writePositions_gap x (n0 :: n1 :: rest2)
        ((n0 :: n1 :: rest2).map (fun n => idealX x all n)) _ hnd
        a b ia ib hne hia hib (by rw [List.length_map])

theorem depthPass_gap (all : List MapNode)
    (hnd : (all.map MapNode.id).Nodup) (a b : MapNode) (d : Int)
    (ha : a ∈ all) (hb : b ∈ all) (hab : a ≠ b)
    (hda : a.depth = d) (hdb : b.depth = d) (x : Int → ℚ) :
    140 ≤ |depthPass all d x a.id - depthPass all d x b.id| := by
  have hfa : a ∈ all.filter (fun n => n.depth = d) :=
    List.mem_filter.mpr ⟨ha, by simp [hda]⟩
  have hfb : b ∈ all.filter (fun n => n.depth = d) :=
    List.mem_filter.mpr ⟨hb, by simp [hdb]⟩
  have hsubl : ((all.filter (fun n => n.depth = d)).map MapNode.id).Sublist
      (all.map MapNode.id) := (List.filter_sublist _).map _
  have hndf := List.Nodup.sublist hsubl hnd
  have hperm : ((all.filter (fun n => n.depth = d)).insertionSort
      (fun a b => idealX x all a ≤ idealX x all b)).Perm
      (all.filter (fun n => n.depth = d)) :=
    List.perm_insertionSort _ _
  exact depthPassCore_gap all x (all.filter (fun n => n.depth = d)) _
    (((hperm.map MapNode.id).nodup_iff).mpr hndf)
    a b (hperm.mem_iff.mpr hfa) (hperm.mem_iff.mpr hfb) hab

theorem depthPass_preserve (all : List MapNode) (d : Int) (x : Int → ℚ)
    (i : Int)
    (hmem : i ∉ (all.filter (fun n => n.depth = d)).map MapNode.id) :
    depthPass all d x i = x i := by
  apply depthPassCore_preserve
  intro hcon
  exact hmem
    ((((List.perm_insertionSort _ _).map MapNode.id).mem_iff).mp hcon)

theorem foldl_depthPass_preserve (all : List MapNode) (i : Int) :
    ∀ (ds : List Int) (x : Int → ℚ),
      (∀ d ∈ ds, i ∉ (all.filter (fun n => n.depth = d)).map MapNode.id) →
      ds.foldl (fun x d => depthPass all d x) x i = x i := by
  intro ds
  induction ds with
  | nil => intro x _; rfl
  | cons d0 rest ih =>
    intro x hall
    rw [List.foldl_cons]
    rw [ih _ (fun d hd => hall d (List.mem_cons_of_mem _ hd))]
    exact depthPass_preserve all d0 x i (hall d0 (List.mem_cons_self _ _))

theorem foldl_depthPass_gap (all : List MapNode)
    (hnd : (all.map MapNode.id).Nodup) (a b : MapNode)
    (ha : a ∈ all) (hb : b ∈ all) (hab : a ≠ b)
    (hdb : b.depth = a.depth) :
    ∀ (ds : List Int) (x : Int → ℚ), a.depth ∈ ds →
      140 ≤ |ds.foldl (fun x d => depthPass all d x) x a.id -
             ds.foldl (fun x d => depthPass all d x) x b.id| := by
  intro ds
  induction ds with
  | nil => intro x h; cases h
  | cons d0 rest ih =>
    intro x hmem
    rw [List.foldl_cons]
    by_cases hr : a.depth ∈ rest
    · exact ih _ hr
    · have hd0 : d0 = a.depth := by
        rcases List.mem_cons.mp hmem with h | h
        · exact h.symm
        · exact absurd h hr
      subst hd0
      have hpres : ∀ (c : MapNode), c ∈ all → c.depth = a.depth →
          ∀ d ∈ rest,
            c.id ∉ (all.filter (fun n => n.depth = d)).map MapNode.id := by
        intro c hc hcd d hdrest hcon
        obtain ⟨m, hmf, hmid⟩ := List.mem_map.mp hcon
        obtain ⟨hmall, hmd⟩ := List.mem_filter.mp hmf
        have hmc : m = c := List.inj_on_of_nodup_map hnd hmall hc hmid
        subst hmc
        have hmdepth : m.depth = d := by simpa using hmd
        rw [← hmdepth, hcd] at hdrest
        exact hr hdrest
      rw [foldl_depthPass_preserve all a.id rest _
          (hpres a ha rfl),
        foldl_depthPass_preserve all b.id rest _
          (hpres b hb hdb)]
      exact depthPass_gap all hnd a b a.depth ha hb hab rfl hdb x

theorem le_foldl_max : ∀ (l : List Int) (e : Int),
    e ≤ l.foldl max e ∧ ∀ z ∈ l, z ≤ l.foldl max e := by
  intro l
  induction l with
  | nil => intro e; exact ⟨le_refl _, by simp⟩
  | cons y rest ih =>
    intro e
    rw [List.foldl_cons]
    obtain ⟨h1, h2⟩ := ih (max e y)
    refine ⟨le_trans (le_max_left e y) h1, ?_⟩
    intro z hz
    rcases List.mem_cons.mp hz with rfl | hz2
    · exact le_trans (le_max_right e z) h1
    · exact h2 z hz2

/-- C9 (amended): after `calculateNodePositions`, any two distinct
collected nodes at the same depth `≥ 1` have x coordinates at least
`nodeWidth = 140` apart (the pass actually spaces them by at least 180
plus a uniform offset).  The literal claim fails for same-depth nodes at
depth 0: the positioning loop starts at depth 1, so non-root nodes whose
`depth` field is 0 keep the constructor default `x = 0`; see the
counterexample. -/
theorem calculateNodePositions_spacing (fuel : Nat) (root : MapNode)
    (a b : MapNode)
    (ha : a ∈ traverseGraph fuel root) (hb : b ∈ traverseGraph fuel root)
    (hab : a ≠ b) (hdep : b.depth = a.depth) (hone : 1 ≤ a.depth) :
    140 ≤ |(calculateNodePositions fuel root).1 a.id -
           (calculateNodePositions fuel root).1 b.id| := by
  have hnd : ((traverseGraph fuel root).map MapNode.id).Nodup :=
    (traverseLoop_nodup root fuel [root] []).1
  have hx : (calculateNodePositions fuel root).1 =
      ((List.range (((traverseGraph fuel root).map MapNode.depth).foldl
          max 0).toNat).map (fun (k : Nat) => (k : Int) + 1)).foldl
        (fun x d => depthPass (traverseGraph fuel root) d x)
        (Function.update (fun _ => (0 : ℚ)) root.id 600) := rfl
  have hle : a.depth ≤ ((traverseGraph fuel root).map
      MapNode.depth).foldl max 0 :=
    (le_foldl_max _ 0).2 a.depth (List.mem_map_of_mem _ ha)
  have hmem : a.depth ∈ (List.range (((traverseGraph fuel root).map
      MapNode.depth).foldl max 0).toNat).map (fun (k : Nat) => (k : Int) + 1) := by
    rw [List.mem_map]
    refine ⟨(a.depth - 1).toNat, ?_, ?_⟩
    · rw [List.mem_range]
      omega
    · omega
  rw [hx]
  exact foldl_depthPass_gap (traverseGraph fuel root) hnd a b ha hb hab
    hdep _ _ hmem

def c9n2 : MapNode := MapNode.mk 2 0 RoomTypeBATTLE 0 [0, 0, 0, 0, 0, 0] []

def c9n3 : MapNode := MapNode.mk 3 0 RoomTypeBATTLE 0 [0, 0, 0, 0, 0, 0] []

def c9root : MapNode :=
  MapNode.mk 1 0 RoomTypeBATTLE 0 [2, 3, 0, 0, 0, 0] [c9n2, c9n3]

/-- C9 counterexample to the literal claim: an acyclic graph whose two
non-root nodes carry `depth = 0`.  The positioning loop runs only for
depths `1..maxDepth`, so both keep the constructor default `x = 0` and
sit 0 < 140 apart at the same depth. -/
theorem calculateNodePositions_counterexample :
    Mirror c9root ∧
    c9n2 ∈ traverseGraph (bfsFuel c9root) c9root ∧
    c9n3 ∈ traverseGraph (bfsFuel c9root) c9root ∧
    c9n2 ≠ c9n3 ∧ c9n2.depth = c9n3.depth ∧
    (calculateNodePositions (bfsFuel c9root) c9root).1 c9n2.id = 0 ∧
    (calculateNodePositions (bfsFuel c9root) c9root).1 c9n3.id = 0 ∧
    |(calculateNodePositions (bfsFuel c9root) c9root).1 c9n2.id -
        (calculateNodePositions (bfsFuel c9root) c9root).1 c9n3.id| <
      140 := by
  refine ⟨by decide, by decide, by decide, by decide, rfl, by decide,
    by decide, ?_⟩
  have ha : (calculateNodePositions (bfsFuel c9root) c9root).1 c9n2.id =
      0 := by decide
  have hb : (calculateNodePositions (bfsFuel c9root) c9root).1 c9n3.id =
      0 := by decide
  rw [ha, hb]
  norm_num

def c9w2 : MapNode := MapNode.mk 2 1 RoomTypeBATTLE 0 [0, 0, 0, 0, 0, 0] []

def c9w3 : MapNode := MapNode.mk 3 1 RoomTypeBATTLE 0 [0, 0, 0, 0, 0, 0] []

def c9wroot : MapNode :=
  MapNode.mk 1 0 RoomTypeBATTLE 0 [2, 3, 0, 0, 0, 0] [c9w2, c9w3]

theorem calculateNodePositions_spacing_witness :
    (c9w2 ∈ traverseGraph (bfsFuel c9wroot) c9wroot ∧
     c9w3 ∈ traverseGraph (bfsFuel c9wroot) c9wroot ∧
     c9w2 ≠ c9w3 ∧ c9w3.depth = c9w2.depth ∧ 1 ≤ c9w2.depth) ∧
    140 ≤ |(calculateNodePositions (bfsFuel c9wroot) c9wroot).1 c9w2.id -
           (calculateNodePositions (bfsFuel c9wroot) c9wroot).1 c9w3.id| :=
  ⟨⟨by decide, by decide, by decide, rfl, by decide⟩,
    calculateNodePositions_spacing (bfsFuel c9wroot) c9wroot c9w2 c9w3
      (by decide) (by decide) (by decide) (by decide) (by decide)⟩

/-! ## Round trip (C2): infrastructure -/

theorem find?_eq_of_unique {α : Type} {p : α → Bool} {l : List α}
    {x : α} (hx : x ∈ l) (hpx : p x = true)
    (huniq : ∀ y ∈ l, p y = true → y = x) :
    l.find? p = some x := by
  induction l with
  | nil => cases hx
  | cons z rest ih =>
    rcases List.mem_cons.mp hx with rfl | hx2
    · rw [List.find?_cons_of_pos _ hpx]
    · by_cases hz : p z = true
      · have : z = x := huniq z (List.mem_cons_self _ _) hz
        subst this
        rw [List.find?_cons_of_pos _ hz]
      · rw [List.find?_cons_of_neg _ (by simpa using hz)]
        exact ih hx2 (fun y hy hpy =>
          huniq y (List.mem_cons_of_mem _ hy) hpy)

theorem idSeq_mem : ∀ (n : Nat) (e x : Int),
    x ∈ idSeq e n ↔ e ≤ x ∧ x < e + n := by
  intro n
  induction n with
  | zero => intro e x; rw [idSeq]; simp
  | succ m ih =>
    intro e x
    rw [idSeq, List.mem_cons, ih (e + 1) x]
    constructor
    · rintro (rfl | ⟨h1, h2⟩) <;> omega
    · intro ⟨h1, h2⟩
      by_cases hx : x = e
      · exact Or.inl hx
      · exact Or.inr ⟨by omega, by omega⟩

theorem idSeq_nodup : ∀ (n : Nat) (e : Int), (idSeq e n).Nodup := by
  intro n
  induction n with
  | zero => intro e; rw [idSeq]; exact List.nodup_nil
  | succ m ih =>
    intro e
    rw [idSeq, List.nodup_cons]
    refine ⟨?_, ih (e + 1)⟩
    rw [idSeq_mem]
    omega

theorem idSeq_length : ∀ (n : Nat) (e : Int), (idSeq e n).length = n := by
  intro n
  induction n with
  | zero => intro e; rfl
  | succ m ih => intro e; rw [idSeq, List.length_cons, ih]

theorem idSeq_get? : ∀ (n k : Nat) (e : Int), k < n →
    (idSeq e n).get? k = some (e + k) := by
  intro n
  induction n with
  | zero => intro k e hk; omega
  | succ m ih =>
    intro k e hk
    cases k with
    | zero =>
      rw [idSeq, List.get?_cons_zero]
      norm_num
    | succ k0 =>
      rw [idSeq, List.get?_cons_succ, ih k0 (e + 1) (by omega)]
      congr 1
      push_cast
      ring

theorem sorted_nodup_eq_idSeq :
    ∀ (n : Nat) (l : List Int) (e : Int), l.Sorted (· ≤ ·) → l.Nodup →
      (∀ x, x ∈ l ↔ x ∈ idSeq e n) → l = idSeq e n := by
  intro n
  induction n with
  | zero =>
    intro l e _ _ hmem
    rw [idSeq]
    cases l with
    | nil => rfl
    | cons x rest =>
      have := (hmem x).mp (List.mem_cons_self _ _)
      rw [idSeq] at this
      cases this
  | succ m ih =>
    intro l e hs hnd hmem
    cases l with
    | nil =>
      have : e ∈ idSeq e (m + 1) := by rw [idSeq_mem]; omega
      exact absurd ((hmem e).mpr this) (by simp)
    | cons h rest =>
      have hin : e ∈ h :: rest :=
        (hmem e).mpr (by rw [idSeq_mem]; omega)
      have hhead : h = e := by
        have h1 : e ≤ h := by
          have := (hmem h).mp (List.mem_cons_self _ _)
          rw [idSeq_mem] at this
          omega
        rcases List.mem_cons.mp hin with heq | hmem2
        · omega
        · have := (List.sorted_cons.mp hs).1 e hmem2
          omega
      subst hhead
      rw [idSeq]
      congr 1
      have hnotin : h ∉ rest := (List.nodup_cons.mp hnd).1
      refine ih rest (h + 1) (List.sorted_cons.mp hs).2
        (List.nodup_cons.mp hnd).2 ?_
      intro x
      constructor
      · intro hx
        have hx2 := (hmem x).mp (List.mem_cons_of_mem _ hx)
        rw [idSeq_mem] at hx2
        rw [idSeq_mem]
        have hne : x ≠ h := fun hcon => hnotin (hcon ▸ hx)
        omega
      · intro hx
        rw [idSeq_mem] at hx
        have : x ∈ h :: rest :=
          (hmem x).mpr (by rw [idSeq_mem]; omega)
        rcases List.mem_cons.mp this with rfl | h2
        · omega
        · exact h2

theorem findIndexBy_of_map_idSeq {α : Type} (f : α → Int) :
    ∀ (l : List α) (e j : Int) (n : Nat), l.map f = idSeq e n →
      e ≤ j → j < e + n →
      findIndexBy (fun x => f x = j) l = some (j - e).toNat := by
  intro l
  induction l with
  | nil =>
    intro e j n hmap h1 h2
    have : n = 0 := by
      have := congrArg List.length hmap
      rw [idSeq_length] at this
      simpa using this.symm
    omega
  | cons a rest ih =>
    intro e j n hmap h1 h2
    cases n with
    | zero => omega
    | succ m =>
      rw [idSeq, List.map_cons] at hmap
      injection hmap with hfa hrest
      rw [findIndexBy]
      by_cases hj : j = e
      · subst hj
        rw [if_pos (by simp [hfa])]
        congr 1
        omega
      · rw [if_neg (by simp [hfa]; omega)]
        rw [ih (e + 1) j m hrest (by omega) (by omega)]
        rw [Option.map_some']
        congr 1
        omega

theorem findIndexBy_self_of_nodup {α : Type} (f : α → Int) :
    ∀ (l : List α), (l.map f).Nodup →
      ∀ (k : Nat) (a : α), l.get? k = some a →
      findIndexBy (fun x => f x = f a) l = some k := by
  intro l
  induction l with
  | nil => intro _ k a ha; simp at ha
  | cons b rest ih =>
    intro hnd k a ha
    rw [List.map_cons, List.nodup_cons] at hnd
    cases k with
    | zero =>
      rw [List.get?_cons_zero] at ha
      obtain rfl := Option.some.inj ha
      rw [findIndexBy, if_pos (by simp)]
    | succ k0 =>
      rw [List.get?_cons_succ] at ha
      have hmem : a ∈ rest := List.get?_mem ha
      have hne : ¬ (f b = f a) := by
        intro hcon
        exact hnd.1 (hcon ▸ List.mem_map_of_mem f hmem)
      rw [findIndexBy, if_neg (by simpa using hne), ih hnd.2 k0 a ha,
        Option.map_some']

theorem sizeOf_le_of_mem_subnodes {m n : MapNode}
    (h : m ∈ subnodes n) : sizeOf m ≤ sizeOf n := by
  rcases subnodes_cases h with rfl | ⟨c, hc, hmc⟩
  · exact le_refl _
  · exact le_trans (sizeOf_le_of_mem_subnodes hmc)
      (le_of_lt (sizeOf_lt_of_mem_children hc))
termination_by sizeOf n
decreasing_by exact sizeOf_lt_of_mem_children hc

/-- No node of the unfolding has an ancestor-or-self as a child. -/
theorem not_self_descendant {g n c : MapNode} (hn : n ∈ subnodes g)
    (hc : c ∈ n.children) (hcg : c = g) : False := by
  subst hcg
  have h1 : sizeOf c < sizeOf n := sizeOf_lt_of_mem_children hc
  have h2 : sizeOf n ≤ sizeOf c := sizeOf_le_of_mem_subnodes hn
  omega

mutual

/-- Height of the unfolding (number of nodes on a longest
root-to-leaf path). -/
def height : MapNode → Nat
  | .mk _ _ _ _ _ cs => 1 + heightList cs

def heightList : List MapNode → Nat
  | [] => 0
  | c :: rest => max (height c) (heightList rest)

end

theorem height_pos (n : MapNode) : 1 ≤ height n := by
  cases n with
  | mk i d rt mi nr cs => rw [height]; omega

theorem height_eq (n : MapNode) : height n = 1 + heightList n.children := by
  cases n with
  | mk i d rt mi nr cs => rw [height]; rfl

theorem height_le_heightList : ∀ (cs : List MapNode), ∀ c ∈ cs,
    height c ≤ heightList cs := by
  intro cs
  induction cs with
  | nil => intro c hc; cases hc
  | cons c0 rest ih =>
    intro c hc
    rw [heightList]
    rcases List.mem_cons.mp hc with rfl | hc2
    · exact le_max_left _ _
    · exact le_trans (ih c hc2) (le_max_right _ _)

theorem heightList_attained : ∀ (cs : List MapNode),
    heightList cs = 0 ∨ ∃ c ∈ cs, heightList cs = height c := by
  intro cs
  induction cs with
  | nil => exact Or.inl rfl
  | cons c0 rest ih =>
    rw [heightList]
    rcases le_total (heightList rest) (height c0) with h | h
    · refine Or.inr ⟨c0, List.mem_cons_self _ _, ?_⟩
      omega
    · rcases ih with h0 | ⟨c, hc, hceq⟩
      · refine Or.inr ⟨c0, List.mem_cons_self _ _, ?_⟩
        omega
      · refine Or.inr ⟨c, List.mem_cons_of_mem _ hc, ?_⟩
        omega

/-- Under id-coherence the height is bounded by the number of distinct
ids: along any descent the ids are pairwise distinct. -/
theorem height_le_card {g : MapNode} (hC : IdCoherent g) :
    ∀ (t : MapNode), t ∈ subnodes g →
      height t ≤ ((subnodes t).map MapNode.id).dedup.length := by
  intro t ht
  have hrec : ∀ c ∈ t.children,
      height c ≤ ((subnodes c).map MapNode.id).dedup.length :=
    fun c hc => height_le_card hC c
      (subnodes_trans (child_mem_subnodes hc) ht)
  rw [height_eq]
  rcases heightList_attained t.children with h0 | ⟨c, hc, hceq⟩
  · rw [h0]
    have : t.id ∈ ((subnodes t).map MapNode.id).dedup := by
      rw [List.mem_dedup]
      exact List.mem_map_of_mem _ (self_mem_subnodes t)
    have := List.length_pos.mpr (List.ne_nil_of_mem this)
    omega
  · rw [hceq]
    have hsub : ((subnodes c).map MapNode.id).dedup.toFinset ⊆
        ((subnodes t).map MapNode.id).dedup.toFinset := by
      intro x hx
      rw [List.mem_toFinset, List.mem_dedup] at hx ⊢
      obtain ⟨m, hm, rfl⟩ := List.mem_map.mp hx
      exact List.mem_map_of_mem _
        (subnodes_trans hm (child_mem_subnodes hc))
    have htid : t.id ∈ ((subnodes t).map MapNode.id).dedup.toFinset := by
      rw [List.mem_toFinset, List.mem_dedup]
      exact List.mem_map_of_mem _ (self_mem_subnodes t)
    have htidc : t.id ∉ ((subnodes c).map MapNode.id).dedup.toFinset := by
      rw [List.mem_toFinset, List.mem_dedup]
      intro hcon
      obtain ⟨m, hm, hmid⟩ := List.mem_map.mp hcon
      have hmg : m ∈ subnodes g :=
        subnodes_trans (subnodes_trans hm (child_mem_subnodes hc)) ht
      have htg : t ∈ subnodes g := ht
      have : m = t := hC m hmg t htg hmid
      subst this
      have h1 : sizeOf m ≤ sizeOf c := sizeOf_le_of_mem_subnodes hm
      have h2 : sizeOf c < sizeOf m := sizeOf_lt_of_mem_children hc
      omega
    have hcard : ((subnodes c).map MapNode.id).dedup.toFinset.card <
        ((subnodes t).map MapNode.id).dedup.toFinset.card := by
      apply Finset.card_lt_card
      rw [Finset.ssubset_iff_of_subset hsub]
      exact ⟨t.id, htid, htidc⟩
    have hc1 := List.toFinset_card_of_nodup
      (List.nodup_dedup ((subnodes c).map MapNode.id))
    have hc2 := List.toFinset_card_of_nodup
      (List.nodup_dedup ((subnodes t).map MapNode.id))
    have := hrec c hc
    omega
termination_by t => sizeOf t
decreasing_by exact sizeOf_lt_of_mem_children hc

/-- The old-id to new-id renumbering of `toFlatJSON` as a total
function (unmapped ids go to 0). -/
def flattenRenumber (g : MapNode) (cid : Int) : Int :=
  (oldToNew (sortedCollect g) cid).getD 0

/-- The record `toFlatJSON g` emits for the collected node `t`. -/
def outRec (g : MapNode) (t : MapNode) : MapNodeData :=
  { id := flattenRenumber g t.id,
    roomType := t.roomType,
    roomData := if t.roomType = RoomTypeBATTLE then some t.monsterIndex1
                else none,
    monsterIndex1 := JsVal.undef,
    nextRooms := t.nextRooms.map (fun e =>
      if 0 < e then flattenRenumber g e else 0) }

theorem toFlatJSON_eq_outRec (g : MapNode) :
    toFlatJSON g = (sortedCollect g).map (outRec g) := rfl

mutual

/-- The tree `fromFlatJSON` rebuilds from the flatten output of a
source node: ids renumbered through `φ`, depths recomputed from the
root, the monster index collapsed to 0 outside BATTLE rooms, the
`nextRooms` entries remapped and one fresh child instance per positive
entry. -/
def rebuild (φ : Int → Int) : MapNode → Int → MapNode
  | .mk i _ rt mi nr cs, dep =>
    MapNode.mk (φ i) dep rt (if rt = RoomTypeBATTLE then mi else 0)
      (nr.map (fun e => if 0 < e then φ e else 0))
      (rebuildList φ cs (dep + 1))

def rebuildList (φ : Int → Int) : List MapNode → Int → List MapNode
  | [], _ => []
  | c :: rest, dep => rebuild φ c dep :: rebuildList φ rest dep

end

theorem rebuildList_eq_map (φ : Int → Int) :
    ∀ (cs : List MapNode) (dep : Int),
      rebuildList φ cs dep = cs.map (fun c => rebuild φ c dep) := by
  intro cs
  induction cs with
  | nil => intro dep; rfl
  | cons c rest ih => intro dep; rw [rebuildList, ih, List.map_cons]

theorem rebuild_id (φ : Int → Int) (t : MapNode) (dep : Int) :
    (rebuild φ t dep).id = φ t.id := by
  cases t with
  | mk i d rt mi nr cs => rw [rebuild]; rfl

theorem rebuild_depth (φ : Int → Int) (t : MapNode) (dep : Int) :
    (rebuild φ t dep).depth = dep := by
  cases t with
  | mk i d rt mi nr cs => rw [rebuild]; rfl

theorem rebuild_roomType (φ : Int → Int) (t : MapNode) (dep : Int) :
    (rebuild φ t dep).roomType = t.roomType := by
  cases t with
  | mk i d rt mi nr cs => rw [rebuild]; rfl

theorem rebuild_monsterIndex (φ : Int → Int) (t : MapNode) (dep : Int) :
    (rebuild φ t dep).monsterIndex1 =
      (if t.roomType = RoomTypeBATTLE then t.monsterIndex1 else 0) := by
  cases t with
  | mk i d rt mi nr cs => rw [rebuild]; rfl

theorem rebuild_nextRooms (φ : Int → Int) (t : MapNode) (dep : Int) :
    (rebuild φ t dep).nextRooms =
      t.nextRooms.map (fun e => if 0 < e then φ e else 0) := by
  cases t with
  | mk i d rt mi nr cs => rw [rebuild]; rfl

theorem rebuild_children (φ : Int → Int) (t : MapNode) (dep : Int) :
    (rebuild φ t dep).children =
      t.children.map (fun c => rebuild φ c (dep + 1)) := by
  cases t with
  | mk i d rt mi nr cs =>
    rw [rebuild]
    show rebuildList φ cs (dep + 1) = _
    rw [rebuildList_eq_map]
    rfl

theorem mem_subnodes_rebuild (φ : Int → Int) :
    ∀ (t : MapNode) (dep : Int) (m : MapNode),
      m ∈ subnodes (rebuild φ t dep) →
      ∃ s ∈ subnodes t, ∃ dep2 : Int, m = rebuild φ s dep2 := by
  intro t dep m hm
  rcases subnodes_cases hm with rfl | ⟨c, hc, hmc⟩
  · exact ⟨t, self_mem_subnodes t, dep, rfl⟩
  · rw [rebuild_children] at hc
    obtain ⟨c0, hc0, rfl⟩ := List.mem_map.mp hc
    obtain ⟨s, hs, dep2, hm2⟩ :=
      mem_subnodes_rebuild φ c0 (dep + 1) m hmc
    exact ⟨s, subnodes_trans hs (child_mem_subnodes hc0), dep2, hm2⟩
termination_by t => sizeOf t
decreasing_by exact sizeOf_lt_of_mem_children hc0

theorem rebuild_mem_subnodes (φ : Int → Int) :
    ∀ (t : MapNode) (dep : Int) (s : MapNode), s ∈ subnodes t →
      ∃ dep2 : Int, rebuild φ s dep2 ∈ subnodes (rebuild φ t dep) := by
  intro t dep s hs
  rcases subnodes_cases hs with rfl | ⟨c, hc, hsc⟩
  · exact ⟨dep, self_mem_subnodes _⟩
  · obtain ⟨dep2, hmem⟩ := rebuild_mem_subnodes φ c (dep + 1) s hsc
    refine ⟨dep2, mem_subnodes_of_child ?_ hmem⟩
    rw [rebuild_children]
    exact List.mem_map_of_mem _ hc
termination_by t => sizeOf t
decreasing_by exact sizeOf_lt_of_mem_children hc

theorem sorted_renumber_map (g : MapNode) (hM : Mirror g)
    (hU : IdUniform g) :
    (sortedCollect g).map (fun m => flattenRenumber g m.id) =
      idSeq 1 (sortedCollect g).length := by
  have hfun : (fun (m : MapNode) => flattenRenumber g m.id) =
      fun (n : MapNode) =>
      ((findIndexBy (fun m2 => m2.id = n.id) (sortedCollect g)).map
        (fun (k : Nat) => (k : Int) + 1)).getD 0 := rfl
  rw [hfun]
  exact map_oldToNew_eq_idSeq _ (sortedCollect_props g hM hU).1 1

theorem out_ids (g : MapNode) (hM : Mirror g) (hU : IdUniform g) :
    (toFlatJSON g).map MapNodeData.id =
      idSeq 1 (sortedCollect g).length := by
  rw [toFlatJSON_eq_outRec, List.map_map]
  exact sorted_renumber_map g hM hU

theorem subnode_mem_sorted (g : MapNode) (hM : Mirror g)
    (hC : IdCoherent g) : ∀ c ∈ subnodes g, c ∈ sortedCollect g := by
  intro c hc
  obtain ⟨hnd, hsub, hcov⟩ :=
    sortedCollect_props g hM (idCoherent_idUniform hC)
  obtain ⟨m, hm, hmid⟩ := List.mem_map.mp (hcov c hc)
  have : m = c := hC m (hsub m hm) c hc hmid
  exact this ▸ hm

theorem renumber_of_get (g : MapNode) (hM : Mirror g) (hU : IdUniform g)
    (k : Nat) (a : MapNode) (hk : (sortedCollect g).get? k = some a) :
    flattenRenumber g a.id = (k : Int) + 1 := by
  rw [flattenRenumber, oldToNew,
    findIndexBy_self_of_nodup MapNode.id _
      (sortedCollect_props g hM hU).1 k a hk,
    Option.map_some', Option.getD_some]

theorem renumber_range (g : MapNode) (hM : Mirror g) (hC : IdCoherent g) :
    ∀ c ∈ subnodes g, 1 ≤ flattenRenumber g c.id ∧
      flattenRenumber g c.id ≤ ((sortedCollect g).length : Int) := by
  intro c hc
  have hcs := subnode_mem_sorted g hM hC c hc
  obtain ⟨k, hk⟩ := List.get?_of_mem hcs
  have hval := renumber_of_get g hM (idCoherent_idUniform hC) k c hk
  have hlt : k < (sortedCollect g).length := (List.get?_eq_some.mp hk).1
  rw [hval]
  omega

theorem renumber_inj (g : MapNode) (hM : Mirror g) (hC : IdCoherent g) :
    ∀ a ∈ subnodes g, ∀ b ∈ subnodes g,
      flattenRenumber g a.id = flattenRenumber g b.id → a = b := by
  intro a ha b hb heq
  have has := subnode_mem_sorted g hM hC a ha
  have hbs := subnode_mem_sorted g hM hC b hb
  have hnd2 : ((sortedCollect g).map
      (fun m => flattenRenumber g m.id)).Nodup := by
    rw [sorted_renumber_map g hM (idCoherent_idUniform hC)]
    exact idSeq_nodup _ _
  exact List.inj_on_of_nodup_map hnd2 has hbs heq

theorem outRec_mem (g : MapNode) (hM : Mirror g) (hC : IdCoherent g) :
    ∀ c ∈ subnodes g, outRec g c ∈ toFlatJSON g := by
  intro c hc
  rw [toFlatJSON_eq_outRec]
  exact List.mem_map_of_mem _ (subnode_mem_sorted g hM hC c hc)

theorem find_outRec (g : MapNode) (hM : Mirror g) (hC : IdCoherent g) :
    ∀ c ∈ subnodes g,
      (toFlatJSON g).find? (fun rcd => rcd.id = flattenRenumber g c.id) =
        some (outRec g c) := by
  intro c hc
  apply find?_eq_of_unique (outRec_mem g hM hC c hc) (by simp [outRec])
  intro y hy hpy
  rw [toFlatJSON_eq_outRec] at hy
  obtain ⟨m, hm, rfl⟩ := List.mem_map.mp hy
  have hmid : (outRec g m).id = flattenRenumber g m.id := rfl
  rw [hmid] at hpy
  have heq : flattenRenumber g m.id = flattenRenumber g c.id := by
    simpa using hpy
  have hmsub : m ∈ subnodes g :=
    (sortedCollect_props g hM (idCoherent_idUniform hC)).2.1 m hm
  rw [renumber_inj g hM hC m hmsub c hc heq]

theorem entry_child (g : MapNode) (hM : Mirror g) (n : MapNode)
    (hn : n ∈ subnodes g) (e : Int) (he : e ∈ n.nextRooms)
    (hpos : 0 < e) : ∃ c ∈ n.children, c.id = e := by
  have : e ∈ n.nextRooms.filter (0 < ·) :=
    List.mem_filter.mpr ⟨he, by simpa using hpos⟩
  rw [← hM n hn] at this
  obtain ⟨c, hc, hcid⟩ := List.mem_map.mp this
  exact ⟨c, hc, hcid⟩

theorem outRec_positive_entries (g : MapNode) (hM : Mirror g)
    (hC : IdCoherent g) (n : MapNode) (hn : n ∈ subnodes g) :
    (outRec g n).nextRooms.filter (fun i => 0 < i) =
      (n.children.map MapNode.id).map (flattenRenumber g) := by
  have hnr : (outRec g n).nextRooms = n.nextRooms.map (fun e =>
      if 0 < e then flattenRenumber g e else 0) := rfl
  rw [hnr, List.filter_map]
  have hfc : n.nextRooms.filter ((fun i => decide (0 < i)) ∘ (fun e =>
      if 0 < e then flattenRenumber g e else 0)) =
      n.nextRooms.filter (fun i => 0 < i) := by
    apply List.filter_congr
    intro e he
    by_cases hpos : 0 < e
    · obtain ⟨c, hc, hcid⟩ := entry_child g hM n hn e he hpos
      have hcg : c ∈ subnodes g :=
        subnodes_trans (child_mem_subnodes hc) hn
      have := (renumber_range g hM hC c hcg).1
      rw [hcid] at this
      simp [hpos, Function.comp]
      omega
    · simp [hpos, Function.comp]
  rw [hfc, ← hM n hn]
  apply List.map_congr_left
  intro e he
  have hpos : 0 < e := by
    rw [hM n hn] at he
    have := List.mem_filter.mp he
    simpa using this.2
  rw [if_pos hpos]

theorem buildNode_outRec (g : MapNode) (hM : Mirror g)
    (hC : IdCoherent g) :
    ∀ (t : MapNode), t ∈ subnodes g → ∀ (f : Nat), height t ≤ f →
      ∀ (dep : Int),
      buildNode (toFlatJSON g) f (outRec g t) dep =
        some (rebuild (flattenRenumber g) t dep) := by
  intro t ht f hf dep
  cases f with
  | zero =>
    have := height_pos t
    omega
  | succ f0 =>
    have hrec : ∀ c ∈ t.children,
        buildNode (toFlatJSON g) f0 (outRec g c) (dep + 1) =
          some (rebuild (flattenRenumber g) c (dep + 1)) := by
      intro c hc
      refine buildNode_outRec g hM hC c
        (subnodes_trans (child_mem_subnodes hc) ht) f0 ?_ (dep + 1)
      have h1 := height_le_heightList t.children c hc
      have h2 := height_eq t
      omega
    have hloop : ∀ (cs : List MapNode), (∀ c ∈ cs, c ∈ t.children) →
        buildChildrenLoop
          (fun cd => buildNode (toFlatJSON g) f0 cd (dep + 1))
          (toFlatJSON g)
          ((cs.map MapNode.id).map (flattenRenumber g)) =
        some (cs.map (fun c =>
          rebuild (flattenRenumber g) c (dep + 1))) := by
      intro cs
      induction cs with
      | nil => intro _; rfl
      | cons c rest ih =>
        intro hall
        have hcc : c ∈ t.children := hall c (List.mem_cons_self _ _)
        have hcsub : c ∈ subnodes g :=
          subnodes_trans (child_mem_subnodes hcc) ht
        rw [List.map_cons, List.map_cons, buildChildrenLoop,
          find_outRec g hM hC c hcsub]
        dsimp only
        rw [hrec c hcc, ih (fun z hz => hall z (List.mem_cons_of_mem _ hz))]
        dsimp only
        rw [List.map_cons]
    rw [buildNode, outRec_positive_entries g hM hC t ht,
      hloop t.children (fun c hc => hc)]
    dsimp only
    congr 1
    cases t with
    | mk i d rt mi nr cs =>
      rw [rebuild, rebuildList_eq_map]
      have hrt : (outRec g (MapNode.mk i d rt mi nr cs)).roomType =
          rt := rfl
      have hch : (MapNode.mk i d rt mi nr cs).children = cs := rfl
      rw [withChildren, fromJSON, hrt]
      by_cases hb : rt = RoomTypeBATTLE
      · simp only [outRec, hb, if_pos]
        rfl
      · simp only [outRec, hb, if_neg, ite_false]
        rfl
termination_by t => sizeOf t
decreasing_by exact sizeOf_lt_of_mem_children hc

theorem flattenCollect_parents :
    ∀ (fuel : Nat) (q : List MapNode) (vis : List Int),
      ∀ m ∈ flattenCollect fuel q vis,
        m ∈ q ∨ ∃ p ∈ flattenCollect fuel q vis, m ∈ p.children := by
  intro fuel
  induction fuel with
  | zero => intro q vis m hm; rw [flattenCollect] at hm; cases hm
  | succ fuel ih =>
    intro q vis m hm
    cases q with
    | nil => rw [flattenCollect] at hm; cases hm
    | cons n rest =>
      by_cases hvis : n.id ∈ vis
      · rw [flattenCollect, if_pos hvis] at hm
        rcases ih rest vis m hm with h | ⟨p, hp, hmp⟩
        · exact Or.inl (List.mem_cons_of_mem _ h)
        · refine Or.inr ⟨p, ?_, hmp⟩
          rw [flattenCollect, if_pos hvis]
          exact hp
      · rw [flattenCollect, if_neg hvis] at hm
        rcases List.mem_cons.mp hm with rfl | hm2
        · exact Or.inl (List.mem_cons_self _ _)
        · rcases ih _ _ m hm2 with h | ⟨p, hp, hmp⟩
          · rcases List.mem_append.mp h with h2 | h2
            · exact Or.inl (List.mem_cons_of_mem _ h2)
            · refine Or.inr ⟨n, ?_, (bfsPushes_sound h2).1⟩
              rw [flattenCollect, if_neg hvis]
              exact List.mem_cons_self _ _
          · refine Or.inr ⟨p, ?_, hmp⟩
            rw [flattenCollect, if_neg hvis]
            exact List.mem_cons_of_mem _ hp

theorem root_unreferenced (g : MapNode) (hM : Mirror g)
    (hC : IdCoherent g) :
    flattenRenumber g g.id ∉ (toFlatJSON g).flatMap
      (fun d => d.nextRooms.filter (fun i => 0 < i)) := by
  intro hcon
  obtain ⟨rec0, hrec0, hmem⟩ := List.mem_flatMap.mp hcon
  rw [toFlatJSON_eq_outRec] at hrec0
  obtain ⟨m, hm, rfl⟩ := List.mem_map.mp hrec0
  have hmsub : m ∈ subnodes g :=
    (sortedCollect_props g hM (idCoherent_idUniform hC)).2.1 m hm
  rw [outRec_positive_entries g hM hC m hmsub] at hmem
  obtain ⟨e, he, heq⟩ := List.mem_map.mp hmem
  obtain ⟨c, hc, rfl⟩ := List.mem_map.mp he
  have hcsub : c ∈ subnodes g :=
    subnodes_trans (child_mem_subnodes hc) hmsub
  have hcg : c = g :=
    renumber_inj g hM hC c hcsub g (self_mem_subnodes g) heq
  exact not_self_descendant hmsub hc hcg

theorem nonroot_referenced (g : MapNode) (hM : Mirror g)
    (hC : IdCoherent g) (y : MapNodeData) (hy : y ∈ toFlatJSON g)
    (hne : y ≠ outRec g g) :
    y.id ∈ (toFlatJSON g).flatMap
      (fun d => d.nextRooms.filter (fun i => 0 < i)) := by
  rw [toFlatJSON_eq_outRec] at hy
  obtain ⟨m, hm, rfl⟩ := List.mem_map.mp hy
  have hmg : m ≠ g := fun hcon => hne (by rw [hcon])
  have hperm : (sortedCollect g).Perm (flattenCollect
      ((subnodes g).length * (subnodes g).length +
        (subnodes g).length + 1) [g] []) :=
    List.perm_insertionSort _ _
  have hmc := hperm.mem_iff.mp hm
  rcases flattenCollect_parents _ _ _ m hmc with h | ⟨p, hp, hmp⟩
  · exact absurd (List.mem_singleton.mp h) hmg
  have hps : p ∈ sortedCollect g := hperm.mem_iff.mpr hp
  have hpsub : p ∈ subnodes g :=
    (sortedCollect_props g hM (idCoherent_idUniform hC)).2.1 p hps
  rw [List.mem_flatMap]
  refine ⟨outRec g p, ?_, ?_⟩
  · rw [toFlatJSON_eq_outRec]
    exact List.mem_map_of_mem _ hps
  · rw [outRec_positive_entries g hM hC p hpsub]
    have : (outRec g m).id = flattenRenumber g m.id := rfl
    rw [this]
    exact List.mem_map_of_mem _ (List.mem_map_of_mem _ hmp)

theorem find_root_record (g : MapNode) (hM : Mirror g)
    (hC : IdCoherent g) :
    (toFlatJSON g).find? (fun n => n.id ∉ (toFlatJSON g).flatMap
      (fun d => d.nextRooms.filter (fun i => 0 < i))) =
      some (outRec g g) := by
  apply find?_eq_of_unique (outRec_mem g hM hC g (self_mem_subnodes g))
  · have h1 := root_unreferenced g hM hC
    have h2 : (outRec g g).id = flattenRenumber g g.id := rfl
    rw [decide_eq_true_eq, h2]
    exact h1
  · intro y hy hpy
    by_contra hne
    have hyid := nonroot_referenced g hM hC y hy hne
    rw [decide_eq_true_eq] at hpy
    exact hpy hyid

theorem fromFlatJSON_toFlatJSON (g : MapNode) (hM : Mirror g)
    (hC : IdCoherent g) :
    fromFlatJSON (toFlatJSON g) =
      some (rebuild (flattenRenumber g) g 0) := by
  rw [fromFlatJSON]
  have hlen : (toFlatJSON g).length = (sortedCollect g).length := by
    rw [toFlatJSON_eq_outRec, List.length_map]
  have hnonempty : (sortedCollect g).length ≠ 0 := by
    have hmem := subnode_mem_sorted g hM hC g (self_mem_subnodes g)
    intro hcon
    rw [List.length_eq_zero] at hcon
    rw [hcon] at hmem
    cases hmem
  rw [if_neg (by omega)]
  rw [find_root_record g hM hC]
  have hheight : height g ≤ (toFlatJSON g).length := by
    have h1 := height_le_card hC g (self_mem_subnodes g)
    have h2 := sortedCollect_length g hM (idCoherent_idUniform hC)
    omega
  exact buildNode_outRec g hM hC g (self_mem_subnodes g)
    (toFlatJSON g).length hheight 0

theorem rebuild_id_comp (g : MapNode) (dd : Int) :
    (MapNode.id ∘ fun c => rebuild (flattenRenumber g) c dd) =
      fun c => flattenRenumber g c.id := by
  funext c
  exact rebuild_id _ c _

theorem rebuild_mirror (g : MapNode) (hM : Mirror g)
    (hC : IdCoherent g) :
    Mirror (rebuild (flattenRenumber g) g 0) := by
  intro m hm
  obtain ⟨s, hs, dep2, rfl⟩ := mem_subnodes_rebuild _ g 0 m hm
  rw [rebuild_children, rebuild_nextRooms, List.map_map,
    rebuild_id_comp g]
  have h2 : (s.nextRooms.map (fun e =>
      if 0 < e then flattenRenumber g e else 0)).filter
        (fun i => 0 < i) =
      (s.children.map MapNode.id).map (flattenRenumber g) :=
    outRec_positive_entries g hM hC s hs
  rw [h2, List.map_map]
  rfl

theorem rebuild_idUniform (g : MapNode) (hM : Mirror g)
    (hC : IdCoherent g) :
    IdUniform (rebuild (flattenRenumber g) g 0) := by
  intro a ha b hb hab
  obtain ⟨s, hs, d1, rfl⟩ := mem_subnodes_rebuild _ g 0 a ha
  obtain ⟨u, hu, d2, rfl⟩ := mem_subnodes_rebuild _ g 0 b hb
  rw [rebuild_id, rebuild_id] at hab
  have hsu : s = u := renumber_inj g hM hC s hs u hu hab
  subst hsu
  refine ⟨?_, ?_, ?_, ?_⟩
  · rw [rebuild_roomType, rebuild_roomType]
  · rw [rebuild_monsterIndex, rebuild_monsterIndex]
  · rw [rebuild_nextRooms, rebuild_nextRooms]
  · rw [rebuild_children, rebuild_children, List.map_map, List.map_map,
      rebuild_id_comp g, rebuild_id_comp g]

theorem rebuild_subnode_id_range (g : MapNode) (hM : Mirror g)
    (hC : IdCoherent g) (j : Int) :
    (∃ m ∈ subnodes (rebuild (flattenRenumber g) g 0), m.id = j) ↔
      (1 ≤ j ∧ j ≤ ((sortedCollect g).length : Int)) := by
  constructor
  · rintro ⟨m, hm, rfl⟩
    obtain ⟨s, hs, dep2, rfl⟩ := mem_subnodes_rebuild _ g 0 m hm
    rw [rebuild_id]
    exact renumber_range g hM hC s hs
  · rintro ⟨h1, h2⟩
    obtain ⟨pa, hk⟩ : ∃ a, (sortedCollect g).get? (j - 1).toNat =
        some a := by
      rw [List.get?_eq_get (by omega)]
      exact ⟨_, rfl⟩
    have hval := renumber_of_get g hM (idCoherent_idUniform hC)
      (j - 1).toNat pa hk
    have hpasub : pa ∈ subnodes g :=
      (sortedCollect_props g hM (idCoherent_idUniform hC)).2.1 pa
        (List.get?_mem hk)
    obtain ⟨dep2, hmem⟩ :=
      rebuild_mem_subnodes (flattenRenumber g) g 0 pa hpasub
    refine ⟨rebuild (flattenRenumber g) pa dep2, hmem, ?_⟩
    rw [rebuild_id, hval]
    omega

theorem sortedCollect_rebuild_ids (g : MapNode) (hM : Mirror g)
    (hC : IdCoherent g) :
    (sortedCollect (rebuild (flattenRenumber g) g 0)).map MapNode.id =
      idSeq 1 (sortedCollect g).length := by
  have hMR := rebuild_mirror g hM hC
  have hUR := rebuild_idUniform g hM hC
  obtain ⟨hnd, hsub, hcov⟩ :=
    sortedCollect_props (rebuild (flattenRenumber g) g 0) hMR hUR
  haveI : IsTotal MapNode (fun a b : MapNode => a.id ≤ b.id) :=
    ⟨fun a b => le_total a.id b.id⟩
  haveI : IsTrans MapNode (fun a b : MapNode => a.id ≤ b.id) :=
    ⟨fun a b c h1 h2 => le_trans h1 h2⟩
  have hsorted : (sortedCollect (rebuild (flattenRenumber g) g 0)).Sorted
      (fun a b : MapNode => a.id ≤ b.id) :=
    List.sorted_insertionSort _ _
  have hs2 : ((sortedCollect (rebuild (flattenRenumber g) g 0)).map
      MapNode.id).Sorted (· ≤ ·) :=
    List.Pairwise.map _ (fun a b h => h) hsorted
  apply sorted_nodup_eq_idSeq _ _ _ hs2 hnd
  intro x
  constructor
  · intro hx
    obtain ⟨m, hm, rfl⟩ := List.mem_map.mp hx
    have := (rebuild_subnode_id_range g hM hC m.id).mp
      ⟨m, hsub m hm, rfl⟩
    rw [idSeq_mem]
    omega
  · intro hx
    rw [idSeq_mem] at hx
    obtain ⟨m, hm, hmid⟩ := (rebuild_subnode_id_range g hM hC x).mpr
      (by omega)
    have := hcov m hm
    rw [hmid] at this
    exact this

theorem rebuild_renumber_id (g : MapNode) (hM : Mirror g)
    (hC : IdCoherent g) (j : Int) (h1 : 1 ≤ j)
    (h2 : j ≤ ((sortedCollect g).length : Int)) :
    flattenRenumber (rebuild (flattenRenumber g) g 0) j = j := by
  rw [flattenRenumber, oldToNew,
    findIndexBy_of_map_idSeq MapNode.id _ 1 j (sortedCollect g).length
      (sortedCollect_rebuild_ids g hM hC) h1 (by omega),
    Option.map_some', Option.getD_some]
  omega

theorem outRec_rebuild (g : MapNode) (hM : Mirror g) (hC : IdCoherent g)
    (s : MapNode) (hs : s ∈ subnodes g) (dep2 : Int) :
    outRec (rebuild (flattenRenumber g) g 0)
      (rebuild (flattenRenumber g) s dep2) = outRec g s := by
  have hrange := renumber_range g hM hC s hs
  have hid : flattenRenumber (rebuild (flattenRenumber g) g 0)
      ((rebuild (flattenRenumber g) s dep2).id) =
      flattenRenumber g s.id := by
    rw [rebuild_id]
    exact rebuild_renumber_id g hM hC _ hrange.1 hrange.2
  unfold outRec
  rw [MapNodeData.mk.injEq]
  refine ⟨hid, ?_, ?_, rfl, ?_⟩
  · rw [rebuild_roomType]
  · rw [rebuild_roomType, rebuild_monsterIndex]
    by_cases hb : s.roomType = RoomTypeBATTLE
    · simp [hb]
    · simp [hb]
  · rw [rebuild_nextRooms, List.map_map]
    apply List.map_congr_left
    intro e he
    rw [Function.comp_apply]
    by_cases hpos : 0 < e
    · rw [if_pos hpos]
      obtain ⟨c, hc, hcid⟩ := entry_child g hM s hs e he hpos
      have hcsub : c ∈ subnodes g :=
        subnodes_trans (child_mem_subnodes hc) hs
      have hrange2 := renumber_range g hM hC c hcsub
      rw [hcid] at hrange2
      rw [if_pos (by omega : (0 : Int) < flattenRenumber g e)]
      exact rebuild_renumber_id g hM hC _ (by omega) (by omega)
    · rw [if_neg hpos]
      rw [if_neg (by omega : ¬ ((0 : Int) < 0))]

theorem toFlatJSON_rebuild (g : MapNode) (hM : Mirror g)
    (hC : IdCoherent g) :
    toFlatJSON (rebuild (flattenRenumber g) g 0) = toFlatJSON g := by
  have hU := idCoherent_idUniform hC
  have hMR := rebuild_mirror g hM hC
  have hUR := rebuild_idUniform g hM hC
  have hlenR : (sortedCollect (rebuild (flattenRenumber g) g 0)).length =
      (sortedCollect g).length := by
    have := congrArg List.length (sortedCollect_rebuild_ids g hM hC)
    rw [List.length_map, idSeq_length] at this
    exact this
  apply List.ext_get?
  intro k
  rw [toFlatJSON_eq_outRec, toFlatJSON_eq_outRec, List.get?_map,
    List.get?_map]
  by_cases hk : k < (sortedCollect g).length
  · obtain ⟨m0, hm0⟩ : ∃ a,
        (sortedCollect (rebuild (flattenRenumber g) g 0)).get? k =
          some a := by
      rw [List.get?_eq_get (by omega)]
      exact ⟨_, rfl⟩
    obtain ⟨n0, hn0⟩ : ∃ a, (sortedCollect g).get? k = some a := by
      rw [List.get?_eq_get (by omega)]
      exact ⟨_, rfl⟩
    rw [hm0, hn0, Option.map_some', Option.map_some']
    have hmid : m0.id = 1 + (k : Int) := by
      have h1 : ((sortedCollect (rebuild (flattenRenumber g) g 0)).map
          MapNode.id).get? k = (idSeq 1 (sortedCollect g).length).get? k
          := by rw [sortedCollect_rebuild_ids g hM hC]
      rw [List.get?_map, hm0, idSeq_get? _ k 1 hk] at h1
      simpa using h1
    have hnsub : n0 ∈ subnodes g :=
      (sortedCollect_props g hM hU).2.1 n0 (List.get?_mem hn0)
    have hmsub : m0 ∈ subnodes (rebuild (flattenRenumber g) g 0) :=
      (sortedCollect_props _ hMR hUR).2.1 m0 (List.get?_mem hm0)
    obtain ⟨s, hssub, dep2, rfl⟩ := mem_subnodes_rebuild _ g 0 m0 hmsub
    have hphis : flattenRenumber g s.id = 1 + (k : Int) := by
      have := hmid
      rw [rebuild_id] at this
      exact this
    have hphink : flattenRenumber g n0.id = (k : Int) + 1 :=
      renumber_of_get g hM hU k n0 hn0
    have hsnk : s = n0 := by
      refine renumber_inj g hM hC s hssub n0 hnsub ?_
      rw [hphis, hphink]
      ring
    subst hsnk
    rw [outRec_rebuild g hM hC s hssub dep2]
  · rw [List.get?_eq_none.mpr (by omega), List.get?_eq_none.mpr
      (by omega)]
    rfl

/-- C2: serializing a valid graph, reconstructing it and serializing
again reproduces the first flatten output record for record: the
reconstruction exists (`fromFlatJSON` returns a node) and its flatten
equals the original flatten.  A valid graph here means the unfolding of an
object graph with unique ids (`IdCoherent`) whose `children` mirror the
positive `nextRooms` entries (`Mirror`). -/
theorem flatten_roundtrip (g : MapNode) (hM : Mirror g)
    (hC : IdCoherent g) :
    ∃ r, fromFlatJSON (toFlatJSON g) = some r ∧
      toFlatJSON r = toFlatJSON g :=
  ⟨rebuild (flattenRenumber g) g 0, fromFlatJSON_toFlatJSON g hM hC,
    toFlatJSON_rebuild g hM hC⟩

instance (g : MapNode) : Decidable (IdCoherent g) := by
  unfold IdCoherent
  infer_instance

def c2goal : MapNode := MapNode.mk 9 2 RoomTypeGOAL 0 [0, 0, 0, 0, 0, 0] []

def c2g : MapNode :=
  MapNode.mk 1 0 RoomTypeBATTLE 5 [7, 3, 0, 0, 0, 0]
    [MapNode.mk 7 1 RoomTypeBATTLE 6 [9, 0, 0, 0, 0, 0] [c2goal],
     MapNode.mk 3 1 RoomTypeBATTLE 8 [9, 0, 0, 0, 0, 0] [c2goal]]

theorem flatten_roundtrip_witness :
    (Mirror c2g ∧ IdCoherent c2g) ∧
    (∃ r, fromFlatJSON (toFlatJSON c2g) = some r ∧
      toFlatJSON r = toFlatJSON c2g) :=
  ⟨⟨by decide, by decide⟩, flatten_roundtrip c2g (by decide) (by decide)⟩
